import Mathlib

/- Formal model of `prim_simulator.py`, a step-by-step simulator of Prim's
minimum-spanning-tree algorithm over an undirected weighted graph.

The Python program represents a graph as a `dict` from vertex tokens to
adjacency lists of `(neighbor, weight)` pairs; we model it as an ordered
association list (`Graph` below), which preserves the insertion order a
Python dict guarantees.  Float weights are modelled as rationals.  The
`heapq` priority queue holds `(weight, u, v)` tuples and always pops the
lexicographically least tuple; we model the heap as a list kept sorted by
that same lexicographic order, so pops (head), snapshots (`sorted(heap)`)
and the final multiset of entries agree with the Python behaviour.
Console narration is modelled as a list of structured trace events, and
exceptions (`ValueError` for a bad start vertex, `KeyError` for an
adjacency lookup of an absent key) as an `Except` error result. -/

namespace PrimSim

abbrev Vertex := String

abbrev Weight := Rat

abbrev AdjList := List (Vertex × Weight)

/-- A graph: insertion-ordered association list from vertex to adjacency list,
modelling the Python dict `Dict[str, List[Tuple[str, float]]]`. -/
abbrev Graph := List (Vertex × AdjList)

/-- A heap entry `(weight, u, v)`: `u` on the visited side, `v` the candidate. -/
abbrev HeapEntry := Weight × Vertex × Vertex

/-- A selected MST edge `(u, v, weight)`, in the order `run` records them. -/
abbrev MstEdge := Vertex × Vertex × Weight

/-- The keys of the graph dict, in insertion order. -/
def keys (g : Graph) : List Vertex := g.map Prod.fst

/-- Adjacency list of `u`, or `[]` when `u` is not a key (Python `graph.get(u, [])`;
code paths that would raise `KeyError` instead are modelled explicitly). -/
def adjOf (g : Graph) (u : Vertex) : AdjList := (g.lookup u).getD []

/-- The edge relation of the adjacency structure: `(v, w)` occurs in `u`'s list. -/
def isAdj (g : Graph) (u v : Vertex) (w : Weight) : Prop := (v, w) ∈ adjOf g u

instance (g : Graph) (u v : Vertex) (w : Weight) : Decidable (isAdj g u v w) := by
  unfold isAdj; infer_instance

/-- Total number of adjacency entries in the graph (used for termination bounds). -/
def totalAdjLen (g : Graph) : Nat := (g.map fun p => p.2.length).sum

/-- Add a key with empty adjacency if absent (Python `if u not in adj: adj[u] = []`,
and the dict comprehension `{n: [] for n in nodes}`). -/
def addKey (g : Graph) (n : Vertex) : Graph :=
  if n ∈ keys g then g else g ++ [(n, [])]

/-- Append a pair to the adjacency list stored under key `u` (Python
`adj[u].append(p)`); leaves the graph unchanged when `u` is not a key. -/
def appendAdj : Graph → Vertex → Vertex × Weight → Graph
  | [], _, _ => []
  | (x, l) :: rest, u, p =>
    if x = u then (x, l ++ [p]) :: rest else (x, l) :: appendAdj rest u p

/-- Process one `[u, v, w]` edge exactly as the loader's loop body does:
add missing keys for `u` then `v`, then append `(v, w)` under `u` and
`(u, w)` under `v`. -/
def addEdge (g : Graph) (e : MstEdge) : Graph :=
  appendAdj (appendAdj (addKey (addKey g e.1) e.2.1) e.1 (e.2.1, e.2.2)) e.2.1 (e.1, e.2.2)

/-- Model of `load_graph_from_json` after JSON parsing: build the dict
`{n: [] for n in nodes}` and then fold the edge loop over `edges`.
(The file reading and JSON decoding are I/O glue outside the model.) -/
def load_graph_from_json (nodes : List Vertex) (edges : List MstEdge) : Graph :=
  edges.foldl addEdge (nodes.foldl addKey [])

/-- The adjacency entries of `x` contributed by `edges`, in input order: for
each edge, first a `(v, w)` entry when `x` is the source, then a `(u, w)`
entry when `x` is the destination.  This is the specification-side
characterisation of the loader result used to state the edge-order clause. -/
def specAdjEntries (x : Vertex) : List MstEdge → AdjList
  | [] => []
  | e :: rest =>
    ((if e.1 = x then [(e.2.1, e.2.2)] else []) ++
      (if e.2.1 = x then [(e.1, e.2.2)] else [])) ++ specAdjEntries x rest

/-- Lexicographic order on heap tuples, matching Python's tuple comparison
`(w, u, v) <= (w', u', v')` used by `heapq` and by `sorted`. -/
def entryLe (a b : HeapEntry) : Prop :=
  a.1 < b.1 ∨ (a.1 = b.1 ∧ (a.2.1 < b.2.1 ∨ (a.2.1 = b.2.1 ∧ a.2.2 ≤ b.2.2)))

instance : DecidableRel entryLe := fun a b => by unfold entryLe; infer_instance

instance : IsTotal HeapEntry entryLe where
  total a b := by
    unfold entryLe
    rcases lt_trichotomy a.1 b.1 with h | h | h
    · exact Or.inl (Or.inl h)
    · rcases lt_trichotomy a.2.1 b.2.1 with h2 | h2 | h2
      · exact Or.inl (Or.inr ⟨h, Or.inl h2⟩)
      · rcases le_total a.2.2 b.2.2 with h3 | h3
        · exact Or.inl (Or.inr ⟨h, Or.inr ⟨h2, h3⟩⟩)
        · exact Or.inr (Or.inr ⟨h.symm, Or.inr ⟨h2.symm, h3⟩⟩)
      · exact Or.inr (Or.inr ⟨h.symm, Or.inl h2⟩)
    · exact Or.inr (Or.inl h)

instance : IsTrans HeapEntry entryLe where
  trans a b c hab hbc := by
    unfold entryLe at *
    rcases hab with h1 | ⟨e1, h1⟩
    · rcases hbc with h2 | ⟨e2, h2⟩
      · exact Or.inl (h1.trans h2)
      · exact Or.inl (e2 ▸ h1)
    · rcases hbc with h2 | ⟨e2, h2⟩
      · exact Or.inl (e1 ▸ h2)
      · refine Or.inr ⟨e1.trans e2, ?_⟩
        rcases h1 with h1 | ⟨f1, h1⟩
        · rcases h2 with h2 | ⟨f2, h2⟩
          · exact Or.inl (h1.trans h2)
          · exact Or.inl (f2 ▸ h1)
        · rcases h2 with h2 | ⟨f2, h2⟩
          · exact Or.inl (f1 ▸ h2)
          · exact Or.inr ⟨f1.trans f2, h1.trans h2⟩

/-- Push one entry into the sorted heap (models `heapq.heappush`: the heap's
observable behaviour — minimum pop and sorted snapshot — is that of a
sorted list under the tuple order). -/
def heapPush (h : List HeapEntry) (e : HeapEntry) : List HeapEntry :=
  List.orderedInsert entryLe e h

/-- Structured trace events, one per console narration block of `run`. -/
inductive TraceEvent where
  | frontierSnapshot (step : Nat) (entries : List HeapEntry)
  | edgeSkipped (u v : Vertex)
  | edgeSelected (u v : Vertex) (w : Weight) (visitedSorted : List Vertex)
      (mst : List MstEdge) (total : Weight)
  | frontierExpanded (v : Vertex) (added : List MstEdge)
  | runFinished (total : Weight) (mst : List MstEdge) (disconnected : Bool)
deriving DecidableEq, Repr

/-- Failures of `run`: the explicit `ValueError` for an unknown start vertex,
and the `KeyError` that `self.graph[v]` would raise on a non-key vertex. -/
inductive PrimError where
  | unknownStartVertex (s : Vertex)
  | missingVertex (v : Vertex)
deriving DecidableEq, Repr

abbrev RunResult := List MstEdge × Weight × List TraceEvent

/-- Helper fact used by the termination argument of `primLoop`: a value
stored in the association list is no longer than the total entry count. -/
def lookup_length_fact :
    ∀ (g : Graph) (u : Vertex) (l : AdjList), g.lookup u = some l →
      l.length ≤ totalAdjLen g := by
  intro g
  induction g with
  | nil => intro u l h; simp [List.lookup] at h
  | cons p rest ih =>
    intro u l h
    rw [List.lookup] at h
    by_cases hu : u == p.1
    · simp only [hu] at h
      cases h
      simp [totalAdjLen]
    · simp only [Bool.not_eq_true] at hu
      simp only [hu] at h
      have hle := ih u l h
      simp only [totalAdjLen, List.map_cons, List.sum_cons] at hle ⊢
      omega

/-- Helper fact: folding `heapPush` over a list grows the heap by the
list's length. -/
def foldPush_length_fact :
    ∀ (l : AdjList) (v : Vertex) (h0 : List HeapEntry),
      (l.foldl (fun h p => heapPush h (p.2, v, p.1)) h0).length =
        h0.length + l.length := by
  intro l v
  induction l with
  | nil => intro h0; simp
  | cons p t ih =>
    intro h0
    simp only [List.foldl_cons]
    rw [ih]
    simp only [heapPush, List.orderedInsert_length, List.length_cons]
    omega

/-- The main loop of `PrimSimulator.run`: `while heap and len(visited) < len(graph)`.
Each iteration emits a frontier snapshot, pops the least entry `(w, u, v)`,
and either skips it (`v` already visited) or selects the edge, extends the
visited set and the MST, and pushes the fresh edges out of `v`. -/
def primLoop (g : Graph) (visited : Finset Vertex) (heap : List HeapEntry)
    (mst : List MstEdge) (total : Weight) (events : List TraceEvent) (step : Nat) :
    Except PrimError RunResult :=
  match heap with
  | [] => .ok (mst, total, events ++ [.runFinished total mst (visited.card != g.length)])
  | (w, u, v) :: rest =>
    if hcard : visited.card < g.length then
      if hv : v ∈ visited then
        primLoop g visited rest mst total
          (events ++ [.frontierSnapshot step ((w, u, v) :: rest), .edgeSkipped u v])
          (step + 1)
      else
        match hl : g.lookup v with
        | none => .error (.missingVertex v)
        | some adjv =>
          primLoop g (insert v visited)
            ((adjv.filter fun p => decide (p.1 ∉ insert v visited)).foldl
              (fun h p => heapPush h (p.2, v, p.1)) rest)
            (mst ++ [(u, v, w)]) (total + w)
            (events ++ [.frontierSnapshot step ((w, u, v) :: rest),
              .edgeSelected u v w ((insert v visited).sort (· ≤ ·)) (mst ++ [(u, v, w)])
                (total + w),
              .frontierExpanded v ((adjv.filter fun p => decide (p.1 ∉ insert v visited)).map
                fun p => (v, p.1, p.2))])
            (step + 1)
    else .ok (mst, total, events ++ [.runFinished total mst (visited.card != g.length)])
termination_by (g.length - visited.card) * (totalAdjLen g + 1) + heap.length
decreasing_by
  · simp only [List.length_cons]
    omega
  · have h1 := foldPush_length_fact (adjv.filter fun p => decide (p.1 ∉ insert v visited)) v rest
    have h2 : (adjv.filter fun p => decide (p.1 ∉ insert v visited)).length ≤ adjv.length :=
      List.length_filter_le _ _
    have h3 : adjv.length ≤ totalAdjLen g := lookup_length_fact g v adjv hl
    have h4 : (insert v visited).card = visited.card + 1 := Finset.card_insert_of_not_mem hv
    have h5 : g.length - visited.card = (g.length - (insert v visited).card) + 1 := by omega
    rw [h5, Nat.add_mul, one_mul]
    simp only [List.length_cons]
    omega

/-- Model of `PrimSimulator.run`: check the start vertex, seed the heap with
the start's adjacency, and run the loop.  The `pause` flag only inserts
interactive `input()` waits in the Python code and affects no computation. -/
def run (g : Graph) (start : Vertex) (pause : Bool) : Except PrimError RunResult :=
  if start ∈ keys g then
    primLoop g {start} ((adjOf g start).foldl (fun h p => heapPush h (p.2, start, p.1)) [])
      [] 0 [] 1
  else .error (.unknownStartVertex start)

/-- Fuel-indexed copy of `primLoop`, used to state that the loop performs a
bounded number of iterations; `none` means the fuel ran out. -/
def primLoopFuel (g : Graph) (fuel : Nat) (visited : Finset Vertex) (heap : List HeapEntry)
    (mst : List MstEdge) (total : Weight) (events : List TraceEvent) (step : Nat) :
    Option (Except PrimError RunResult) :=
  match fuel with
  | 0 => none
  | fuel + 1 =>
    match heap with
    | [] => some (.ok (mst, total, events ++ [.runFinished total mst (visited.card != g.length)]))
    | (w, u, v) :: rest =>
      if visited.card < g.length then
        if v ∈ visited then
          primLoopFuel g fuel visited rest mst total
            (events ++ [.frontierSnapshot step ((w, u, v) :: rest), .edgeSkipped u v])
            (step + 1)
        else
          match g.lookup v with
          | none => some (.error (.missingVertex v))
          | some adjv =>
            primLoopFuel g fuel (insert v visited)
              ((adjv.filter fun p => decide (p.1 ∉ insert v visited)).foldl
                (fun h p => heapPush h (p.2, v, p.1)) rest)
              (mst ++ [(u, v, w)]) (total + w)
              (events ++ [.frontierSnapshot step ((w, u, v) :: rest),
                .edgeSelected u v w ((insert v visited).sort (· ≤ ·)) (mst ++ [(u, v, w)])
                  (total + w),
                .frontierExpanded v ((adjv.filter fun p => decide (p.1 ∉ insert v visited)).map
                  fun p => (v, p.1, p.2))])
              (step + 1)
      else some (.ok (mst, total, events ++ [.runFinished total mst (visited.card != g.length)]))

/-- An explicit iteration bound for the main loop, in terms of the vertex
count and the total number of adjacency entries of the graph. -/
def fuelBound (g : Graph) : Nat := (g.length + 1) * (totalAdjLen g + 1)

/-- Fuel-indexed copy of `run` built on `primLoopFuel`. -/
def runFuel (g : Graph) (start : Vertex) (fuel : Nat) : Option (Except PrimError RunResult) :=
  if start ∈ keys g then
    primLoopFuel g fuel {start}
      ((adjOf g start).foldl (fun h p => heapPush h (p.2, start, p.1)) []) [] 0 [] 1
  else some (.error (.unknownStartVertex start))

/-- The predecessor map of the BFS in `find_path_in_mst`: an insertion-ordered
association list modelling the Python dict `prev` (value `none` marks the
start vertex). -/
abbrev Prev := List (Vertex × Option Vertex)

/-- One pass of the inner `for nb, _ in adj.get(node, [])` loop of the BFS:
fresh neighbours are recorded in `prev` and enqueued; on discovering the
target the queue is cleared and the scan breaks off. -/
def bfsScan (target node : Vertex) : AdjList → List Vertex → Prev → List Vertex × Prev
  | [], q, prev => (q, prev)
  | p :: rest, q, prev =>
    if (prev.lookup p.1).isSome then bfsScan target node rest q prev
    else if p.1 = target then ([], prev ++ [(p.1, some node)])
    else bfsScan target node rest (q ++ [p.1]) (prev ++ [(p.1, some node)])

/-- All vertices mentioned as neighbour entries anywhere in the graph. -/
def allNbrs : Graph → List Vertex
  | [] => []
  | p :: rest => p.2.map Prod.fst ++ allNbrs rest

/-- All vertices mentioned anywhere in the graph (keys and neighbour entries). -/
def vertsOf (g : Graph) : List Vertex := keys g ++ allNbrs g

/-- Helper fact: `List.lookup` on an appended list tries the left part first. -/
def lookup_append_fact {β : Type} :
    ∀ (l₁ l₂ : List (Vertex × β)) (x : Vertex),
      (l₁ ++ l₂).lookup x =
        match l₁.lookup x with
        | some v => some v
        | none => l₂.lookup x := by
  intro l₁ l₂ x
  induction l₁ with
  | nil => simp [List.lookup]
  | cons p rest ih =>
    simp only [List.cons_append, List.lookup]
    by_cases hx : x == p.1
    · simp [hx]
    · simp only [Bool.not_eq_true] at hx
      simp [hx, ih]

/-- Helper fact: a successful `List.lookup` exhibits a member of the list. -/
def lookup_mem_fact {β : Type} :
    ∀ (l : List (Vertex × β)) (u : Vertex) (b : β), l.lookup u = some b → (u, b) ∈ l := by
  intro l
  induction l with
  | nil => intro u b h; simp [List.lookup] at h
  | cons p rest ih =>
    intro u b h
    rw [List.lookup] at h
    by_cases hu : u == p.1
    · simp only [hu] at h
      cases h
      have : u = p.1 := by simpa using hu
      subst this
      exact List.mem_cons_self _ _
    · simp only [Bool.not_eq_true] at hu
      simp only [hu] at h
      exact List.mem_cons_of_mem _ (ih u b h)

/-- Helper fact: entries of an adjacency list name vertices of the graph. -/
def adjOf_verts_fact :
    ∀ (g : Graph) (u : Vertex) (p : Vertex × Weight), p ∈ adjOf g u → p.1 ∈ vertsOf g := by
  intro g u p hp
  unfold adjOf at hp
  cases hl : g.lookup u with
  | none => rw [hl] at hp; simp at hp
  | some l =>
    rw [hl] at hp
    simp only [Option.getD_some] at hp
    have hmem : (u, l) ∈ g := lookup_mem_fact g u l hl
    have : p.1 ∈ allNbrs g := by
      clear hl
      induction g with
      | nil => simp at hmem
      | cons r rest ih =>
        rcases List.mem_cons.mp hmem with h | h
        · subst h
          simp only [allNbrs, List.mem_append]
          exact Or.inl (List.mem_map_of_mem _ hp)
        · simp only [allNbrs, List.mem_append]
          exact Or.inr (ih h)
    simp [vertsOf, this]

/-- Helper fact: pointwise, an extension of `prev` resolves at least as many
keys as `prev` does. -/
def lookup_extend_fact :
    ∀ (prev ext : Prev) (x : Vertex),
      ((prev ++ ext).lookup x).isNone = true → (prev.lookup x).isNone = true := by
  intro prev ext x h
  rw [lookup_append_fact] at h
  cases hp : prev.lookup x with
  | none => simp
  | some v => rw [hp] at h; simp at h

/-- Helper fact: extending `prev` cannot grow the set of unresolved vertices. -/
def filter_mono_fact :
    ∀ (L : List Vertex) (prev ext : Prev),
      ((L.filter fun x => ((prev ++ ext).lookup x).isNone).length ≤
        (L.filter fun x => (prev.lookup x).isNone).length) := by
  intro L prev ext
  induction L with
  | nil => simp
  | cons a t ih =>
    simp only [List.filter_cons]
    by_cases h : ((prev ++ ext).lookup a).isNone = true
    · rw [if_pos h, if_pos (lookup_extend_fact prev ext a h)]
      simpa using ih
    · rw [if_neg h]
      by_cases h2 : (prev.lookup a).isNone = true
      · rw [if_pos h2]
        simp only [List.length_cons]
        omega
      · rw [if_neg h2]
        exact ih

/-- Helper fact: recording a fresh vertex strictly shrinks the set of
unresolved vertices drawn from any list containing it. -/
def filter_strict_fact :
    ∀ (L : List Vertex) (prev : Prev) (nb : Vertex) (pv : Option Vertex),
      nb ∈ L → (prev.lookup nb).isNone = true →
      ((L.filter fun x => ((prev ++ [(nb, pv)]).lookup x).isNone).length <
        (L.filter fun x => (prev.lookup x).isNone).length) := by
  intro L prev nb pv hmem hfresh
  induction L with
  | nil => simp at hmem
  | cons a t ih =>
    simp only [List.filter_cons]
    rcases List.mem_cons.mp hmem with h | h
    · subst h
      have hnew : ((prev ++ [(nb, pv)]).lookup nb).isNone = false := by
        rw [lookup_append_fact]
        cases hp : prev.lookup nb with
        | none => simp [List.lookup]
        | some v => rw [hp] at hfresh; simp at hfresh
      rw [if_neg (by simp [hnew]), if_pos hfresh]
      have := filter_mono_fact t prev [(nb, pv)]
      simp only [List.length_cons]
      omega
    · by_cases ha : ((prev ++ [(nb, pv)]).lookup a).isNone = true
      · rw [if_pos ha, if_pos (lookup_extend_fact prev [(nb, pv)] a ha)]
        simp only [List.length_cons]
        exact Nat.succ_lt_succ (ih h)
      · rw [if_neg ha]
        by_cases h2 : (prev.lookup a).isNone = true
        · rw [if_pos h2]
          have := filter_mono_fact t prev [(nb, pv)]
          have hlt := ih h
          simp only [List.length_cons]
          omega
        · rw [if_neg h2]
          exact ih h

/-- Helper fact: one inner scan can only decrease the BFS loop measure. -/
def bfsScan_measure_fact :
    ∀ (V : List Vertex) (target node : Vertex) (l : AdjList),
      (∀ p ∈ l, p.1 ∈ V) → ∀ (q : List Vertex) (prev : Prev),
      2 * ((V.filter fun x => ((bfsScan target node l q prev).2.lookup x).isNone).length) +
          (bfsScan target node l q prev).1.length ≤
        2 * ((V.filter fun x => (prev.lookup x).isNone).length) + q.length := by
  intro V target node l
  induction l with
  | nil => intro _ q prev; simp [bfsScan]
  | cons p rest ih =>
    intro hV q prev
    have hVrest : ∀ r ∈ rest, r.1 ∈ V := fun r hr => hV r (List.mem_cons_of_mem _ hr)
    simp only [bfsScan]
    by_cases h1 : (prev.lookup p.1).isSome
    · rw [if_pos h1]
      exact ih hVrest q prev
    · rw [if_neg h1]
      have hfresh : (prev.lookup p.1).isNone = true := by
        cases hp : prev.lookup p.1 with
        | none => simp
        | some v => rw [hp] at h1; simp at h1
      have hstrict := filter_strict_fact V prev p.1 (some node) (hV p (List.mem_cons_self _ _)) hfresh
      by_cases h2 : p.1 = target
      · rw [if_pos h2]
        simp only [List.length_nil]
        omega
      · rw [if_neg h2]
        have := ih hVrest (q ++ [p.1]) (prev ++ [(p.1, some node)])
        simp only [List.length_append, List.length_cons, List.length_nil] at this ⊢
        omega

/-- The outer `while q:` loop of the BFS in `find_path_in_mst`. -/
def bfsLoop (adj : Graph) (target : Vertex) (q : List Vertex) (prev : Prev) : Prev :=
  match q with
  | [] => prev
  | node :: qrest =>
    bfsLoop adj target (bfsScan target node (adjOf adj node) qrest prev).1
      (bfsScan target node (adjOf adj node) qrest prev).2
termination_by 2 * (((vertsOf adj).filter fun x => (prev.lookup x).isNone).length) + q.length
decreasing_by
  have hmem : ∀ p ∈ adjOf adj node, p.1 ∈ vertsOf adj := fun p hp =>
    adjOf_verts_fact adj node p hp
  have := bfsScan_measure_fact (vertsOf adj) target node (adjOf adj node) hmem qrest prev
  simp only [List.length_cons]
  omega

/-- The predecessor map computed by the BFS of `find_path_in_mst`. -/
def bfsPrev (adj : Graph) (start target : Vertex) : Prev :=
  bfsLoop adj target [start] [(start, none)]

/-- Path reconstruction: `while cur is not None: path.append(cur); cur = prev[cur]`.
The fuel only bounds the chain length; `find_path_in_mst` passes enough for
any chain of distinct `prev` keys.  (A missing key, where Python would raise
`KeyError`, stops the walk; that branch is unreachable for maps built by
`bfsLoop`.) -/
def reconstruct (prev : Prev) : Option Vertex → Nat → List Vertex
  | _, 0 => []
  | none, _ + 1 => []
  | some cur, fuel + 1 => cur :: reconstruct prev ((prev.lookup cur).getD none) fuel

/-- The weight the Python code looks up for a consecutive path pair: the first
entry for `b` in the adjacency of `a`. -/
def firstWeight (adj : Graph) (a b : Vertex) : Option Weight :=
  ((adjOf adj a).find? fun p => p.1 == b).map Prod.snd

/-- Path weight accumulation over consecutive pairs; a missing lookup is the
silent no-op of the Python code (adds nothing). -/
def pathWeight (adj : Graph) (path : List Vertex) : Weight :=
  (path.zip path.tail).foldl (fun acc pr => acc + ((firstWeight adj pr.1 pr.2).getD 0)) 0

/-- The MST adjacency built by `find_path_in_mst`: `setdefault`/`append` on
both endpoints of every edge, which is exactly the loader's edge-loop body. -/
def mstAdj (mst : List MstEdge) : Graph := mst.foldl addEdge []

/-- Model of `find_path_in_mst`: trivial path for `start == target`, otherwise
BFS from `start`, then reconstruction and weight summation when the target
was recorded, and `none` when it was not. -/
def find_path_in_mst (mst : List MstEdge) (start target : Vertex) :
    Option (List Vertex × Weight) :=
  if start = target then some ([start], 0)
  else
    if ((bfsPrev (mstAdj mst) start target).lookup target).isSome then
      some (((reconstruct (bfsPrev (mstAdj mst) start target) (some target)
          ((bfsPrev (mstAdj mst) start target).length + 1)).reverse),
        pathWeight (mstAdj mst)
          ((reconstruct (bfsPrev (mstAdj mst) start target) (some target)
            ((bfsPrev (mstAdj mst) start target).length + 1)).reverse))
    else none

/-- The graph dict is closed: every vertex referenced by an adjacency entry is
itself a key.  Graphs produced by `load_graph_from_json` have this shape. -/
def ClosedG (g : Graph) : Prop := ∀ p ∈ g, ∀ q ∈ p.2, q.1 ∈ keys g

instance (g : Graph) : Decidable (ClosedG g) := by unfold ClosedG; infer_instance

/-- The adjacency structure is symmetric: every entry `(v, w)` under `u` has a
matching entry `(u, w)` under `v`. -/
def SymmG (g : Graph) : Prop := ∀ p ∈ g, ∀ q ∈ p.2, isAdj g q.1 p.1 q.2

instance (g : Graph) : Decidable (SymmG g) := by unfold SymmG; infer_instance

/-- One directed step along the adjacency structure. -/
def adjStep (g : Graph) (x y : Vertex) : Prop := ∃ w, isAdj g x y w

/-- Reachability along the adjacency structure. -/
def Reach (g : Graph) : Vertex → Vertex → Prop := Relation.ReflTransGen (adjStep g)

/-- One undirected step along an edge list (either record orientation). -/
def estep (l : List MstEdge) (x y : Vertex) : Prop := ∃ w, (x, y, w) ∈ l ∨ (y, x, w) ∈ l

/-- Connectivity in the undirected graph induced by an edge list. -/
def ReachE (l : List MstEdge) : Vertex → Vertex → Prop := Relation.ReflTransGen (estep l)

/-- One undirected step along a finite edge set. -/
def tstep (T : Finset MstEdge) (x y : Vertex) : Prop := ∃ w, (x, y, w) ∈ T ∨ (y, x, w) ∈ T

/-- Connectivity in the undirected graph induced by a finite edge set. -/
def ReachT (T : Finset MstEdge) : Vertex → Vertex → Prop := Relation.ReflTransGen (tstep T)

/-- The unordered endpoint pair of an edge record. -/
def pairOf (e : MstEdge) : Finset Vertex := {e.1, e.2.1}

/-- All oriented edge records of the graph, as a list. -/
def triplesOf : Graph → List MstEdge
  | [] => []
  | p :: rest => (p.2.map fun q => (p.1, q.1, q.2)) ++ triplesOf rest

/-- Total weight of a finite edge set. -/
def treeWeight (T : Finset MstEdge) : Weight := T.sum fun e => e.2.2

/-- A spanning tree of the graph, as a finite set of oriented edge records:
records are edges of `g`, loop-free, with pairwise distinct endpoint pairs,
there are exactly `|V| - 1` of them, and they connect every vertex to
`start`.  (A connected spanning subgraph on `|V| - 1` edges is exactly a
spanning tree.) -/
def IsSTree (g : Graph) (start : Vertex) (T : Finset MstEdge) : Prop :=
  (∀ e ∈ T, isAdj g e.1 e.2.1 e.2.2) ∧ (∀ e ∈ T, e.1 ≠ e.2.1) ∧
  (∀ e ∈ T, ∀ e' ∈ T, e ≠ e' → pairOf e ≠ pairOf e') ∧
  T.card + 1 = g.length ∧ (∀ x ∈ keys g, ReachT T start x)

/-- The set of total weights achieved by spanning trees of `g`. -/
def mstWeightSet (g : Graph) (start : Vertex) : Set Weight :=
  {w | ∃ T, IsSTree g start T ∧ w = treeWeight T}

/-- A simple path between `a` and `b` in the undirected graph of an edge list. -/
def SimplePath (l : List MstEdge) (p : List Vertex) (a b : Vertex) : Prop :=
  List.Chain' (estep l) p ∧ p.head? = some a ∧ p.getLast? = some b ∧ p.Nodup

/-- A simple cycle (length at least three, distinct vertices, consecutive
adjacency, closing edge) in the undirected graph of an edge list. -/
def SimpleCycle (l : List MstEdge) (c : List Vertex) : Prop :=
  3 ≤ c.length ∧ c.Nodup ∧ List.Chain' (estep l) c ∧
    ∀ x y, c.head? = some x → c.getLast? = some y → estep l y x

/-- The edge list is a forest: no self-loop records, at most one record per
endpoint pair, and no simple cycle. -/
def IsForestE (l : List MstEdge) : Prop :=
  (∀ e ∈ l, e.1 ≠ e.2.1) ∧ (∀ e ∈ l, ∀ e' ∈ l, e ≠ e' → pairOf e ≠ pairOf e') ∧
    ∀ c, ¬ SimpleCycle l c

/-- A vertex list is a chain through the edge list whose edge weights sum to
`w`: each consecutive pair is joined by a record of the list (in either
orientation) whose weights accumulate to `w`. -/
inductive WeightedChain (l : List MstEdge) : List Vertex → Weight → Prop where
  | nil : WeightedChain l [] 0
  | single (x : Vertex) : WeightedChain l [x] 0
  | cons (x y : Vertex) (rest : List Vertex) (wxy wr : Weight) :
      ((x, y, wxy) ∈ l ∨ (y, x, wxy) ∈ l) → WeightedChain l (y :: rest) wr →
      WeightedChain l (x :: y :: rest) (wxy + wr)

/-- The loop invariant of `primLoop`, tying the visited set, the heap, the
MST edge list and the running total to the graph and the start vertex. -/
structure Inv (g : Graph) (start : Vertex) (visited : Finset Vertex)
    (heap : List HeapEntry) (mst : List MstEdge) (total : Weight) : Prop where
  start_mem : start ∈ visited
  visited_keys : ∀ x ∈ visited, x ∈ keys g
  visited_reach : ∀ x ∈ visited, Reach g start x
  heap_sorted : heap.Sorted entryLe
  heap_src : ∀ e ∈ heap, e.2.1 ∈ visited ∧ isAdj g e.2.1 e.2.2 e.1
  cover : ∀ x ∈ visited, ∀ y w, isAdj g x y w → y ∈ visited ∨ (w, x, y) ∈ heap
  card_mst : visited.card = mst.length + 1
  mst_src : ∀ e ∈ mst, isAdj g e.1 e.2.1 e.2.2 ∧ e.1 ∈ visited ∧ e.2.1 ∈ visited
  mst_seconds : (mst.map fun e => e.2.1).Nodup
  start_not_second : start ∉ mst.map fun e => e.2.1
  mst_noloop : ∀ e ∈ mst, e.1 ≠ e.2.1
  mst_pairs : ∀ e ∈ mst, ∀ e' ∈ mst, e ≠ e' → pairOf e ≠ pairOf e'
  mst_reach : ∀ x ∈ visited, ReachE mst start x
  total_eq : total = (mst.map fun e => e.2.2).sum

/-- Well-formedness of the BFS predecessor map: an entry with no parent is the
start vertex, and an entry with parent `pa` is an adjacency step away from
`pa`, which occurs at a strictly earlier position of the map. -/
def ParentsProp (adj : Graph) (start : Vertex) (prev : Prev) : Prop :=
  ∀ i, ∀ hi : i < prev.length,
    ((prev.get ⟨i, hi⟩).2 = none → (prev.get ⟨i, hi⟩).1 = start) ∧
    ∀ pa, (prev.get ⟨i, hi⟩).2 = some pa →
      adjStep adj pa (prev.get ⟨i, hi⟩).1 ∧
      ∃ j, ∃ hj : j < prev.length, j < i ∧ (prev.get ⟨j, hj⟩).1 = pa

/-- The loop invariant of the BFS in `find_path_in_mst`: the predecessor map
has distinct keys starting with the start vertex, every recorded parent
link points to an earlier key across an adjacency step, the queue holds
distinct recorded keys, every recorded key is reachable from the start,
and either every processed key has all its neighbours recorded, or the
target has been found (after the early exit). -/
structure BfsInv (adj : Graph) (start target : Vertex) (q : List Vertex) (prev : Prev) :
    Prop where
  keys_nodup : (prev.map Prod.fst).Nodup
  head_start : prev.head? = some (start, none)
  parents : ParentsProp adj start prev
  q_sub : ∀ x ∈ q, x ∈ prev.map Prod.fst
  q_nodup : q.Nodup
  reach : ∀ x ∈ prev.map Prod.fst, Reach adj start x
  closed_or_found :
    (∀ x, x ∈ prev.map Prod.fst → x ∉ q → ∀ p ∈ adjOf adj x, p.1 ∈ prev.map Prod.fst) ∨
      target ∈ prev.map Prod.fst

/-- What one inner scan guarantees about its output `r = (queue, prev)`:
well-formedness is preserved, the map only grows, and either the target was
just found (queue cleared), or the queue kept its old entries, every scanned
neighbour is recorded, and all new records sit in the queue. -/
structure ScanOut (adj : Graph) (start target node : Vertex) (l : AdjList)
    (q : List Vertex) (prev : Prev) (r : List Vertex × Prev) : Prop where
  ext_prev : ∃ ext, r.2 = prev ++ ext
  keys_nodup : (r.2.map Prod.fst).Nodup
  head_start : r.2.head? = some (start, none)
  parents : ParentsProp adj start r.2
  reach : ∀ x ∈ r.2.map Prod.fst, Reach adj start x
  q_sub : ∀ x ∈ r.1, x ∈ r.2.map Prod.fst
  q_nodup : r.1.Nodup
  progress : (target ∈ r.2.map Prod.fst ∧ r.1 = []) ∨
    ((∀ x ∈ q, x ∈ r.1) ∧ (∀ p ∈ l, p.1 ∈ r.2.map Prod.fst) ∧
      (∀ x, x ∈ r.2.map Prod.fst → x ∈ prev.map Prod.fst ∨ x ∈ r.1))

section BasicLemmas

/-- Key membership is exactly lookup success, for any association list over
vertices. -/
theorem mem_keys_iff_lookup {β : Type} (l : List (Vertex × β)) (u : Vertex) :
    u ∈ l.map Prod.fst ↔ (l.lookup u).isSome := by
  induction l with
  | nil => simp [List.lookup]
  | cons p rest ih =>
    simp only [List.map_cons, List.mem_cons, List.lookup]
    by_cases hu : u = p.1
    · subst hu
      simp
    · have hbe : (u == p.1) = false := by simpa using hu
      simp [hbe, hu, ih]

theorem adjOf_eq_of_lookup {g : Graph} {u : Vertex} {l : AdjList}
    (h : g.lookup u = some l) : adjOf g u = l := by
  simp [adjOf, h]

theorem adjOf_eq_nil_of_lookup {g : Graph} {u : Vertex}
    (h : g.lookup u = none) : adjOf g u = [] := by
  simp [adjOf, h]

theorem isAdj_mem_keys {g : Graph} {u v : Vertex} {w : Weight}
    (hC : ClosedG g) (h : isAdj g u v w) : v ∈ keys g := by
  unfold isAdj adjOf at h
  cases hl : g.lookup u with
  | none => rw [hl] at h; simp at h
  | some l =>
    rw [hl] at h
    simp only [Option.getD_some] at h
    exact hC (u, l) (lookup_mem_fact g u l hl) (v, w) h

theorem isAdj_symm {g : Graph} {u v : Vertex} {w : Weight}
    (hS : SymmG g) (h : isAdj g u v w) : isAdj g v u w := by
  unfold isAdj adjOf at h
  cases hl : g.lookup u with
  | none => rw [hl] at h; simp at h
  | some l =>
    rw [hl] at h
    simp only [Option.getD_some] at h
    exact hS (u, l) (lookup_mem_fact g u l hl) (v, w) h

theorem mem_adjOf_of_isAdj {g : Graph} {u v : Vertex} {w : Weight}
    (h : isAdj g u v w) : (v, w) ∈ adjOf g u := h

/-- A set of vertices containing the start and closed under adjacency steps
contains everything reachable from the start. -/
theorem reach_subset_closed {g : Graph} {start : Vertex} {S : Set Vertex}
    (hclosed : ∀ x ∈ S, ∀ y w, isAdj g x y w → y ∈ S) (hstart : start ∈ S) :
    ∀ x, Reach g start x → x ∈ S := by
  intro x hx
  induction hx with
  | refl => exact hstart
  | tail _ hstep ih =>
    obtain ⟨w, hw⟩ := hstep
    exact hclosed _ ih _ _ hw

end BasicLemmas

section Determinism

/-- C7: `run` is deterministic.  The model is a pure function of the graph and
the start vertex; in particular the `pause` flag (the only other input of
the Python method) changes neither the MST edge list, nor the total weight,
nor the emitted event sequence, so two calls on the same immutable graph
and start vertex give identical results. -/
theorem run_deterministic (g : Graph) (s : Vertex) (p₁ p₂ : Bool) :
    run g s p₁ = run g s p₂ := rfl

end Determinism

section TrivialPath

/-- C4: `find_path_in_mst mstEdges X X` returns `some ([X], 0)` for every edge
list and every vertex `X`, including vertices occurring in no edge. -/
theorem findPath_self (mst : List MstEdge) (X : Vertex) :
    find_path_in_mst mst X X = some ([X], 0) := by
  simp [find_path_in_mst]

end TrivialPath

section Loader

theorem mem_keys_addKey (g : Graph) (n x : Vertex) :
    x ∈ keys (addKey g n) ↔ x ∈ keys g ∨ x = n := by
  unfold addKey
  by_cases h : n ∈ keys g
  · rw [if_pos h]
    constructor
    · exact Or.inl
    · rintro (hx | rfl)
      · exact hx
      · exact h
  · rw [if_neg h]
    simp [keys]

/-- Key membership is exactly lookup success, specialised to graphs. -/
theorem mem_keys_iff (g : Graph) (u : Vertex) : u ∈ keys g ↔ (g.lookup u).isSome :=
  mem_keys_iff_lookup g u

theorem adjOf_addKey (g : Graph) (n x : Vertex) : adjOf (addKey g n) x = adjOf g x := by
  unfold addKey
  by_cases h : n ∈ keys g
  · rw [if_pos h]
  · rw [if_neg h]
    unfold adjOf
    rw [lookup_append_fact]
    cases hl : g.lookup x with
    | some l => simp
    | none =>
      simp only [Option.getD_none]
      rw [List.lookup]
      by_cases hxn : (x == n) = true
      · simp [hxn]
      · simp [hxn, List.lookup]

theorem keys_appendAdj (g : Graph) (u : Vertex) (p : Vertex × Weight) :
    keys (appendAdj g u p) = keys g := by
  induction g with
  | nil => rfl
  | cons r rest ih =>
    obtain ⟨x, l⟩ := r
    unfold appendAdj
    by_cases h : x = u
    · rw [if_pos h]
      simp [keys]
    · rw [if_neg h]
      simp only [keys, List.map_cons] at ih ⊢
      rw [ih]

theorem lookup_appendAdj (g : Graph) (u : Vertex) (p : Vertex × Weight) (x : Vertex) :
    (appendAdj g u p).lookup x =
      if x = u then (g.lookup x).map (fun l => l ++ [p]) else g.lookup x := by
  induction g with
  | nil =>
    unfold appendAdj
    by_cases h : x = u <;> simp [h, List.lookup]
  | cons r rest ih =>
    obtain ⟨y, l⟩ := r
    unfold appendAdj
    by_cases hyu : y = u
    · subst hyu
      rw [if_pos rfl]
      by_cases hxy : x = y
      · subst hxy
        simp [List.lookup]
      · have hbe : ¬(x == y) = true := by simpa using hxy
        simp [List.lookup, hbe, hxy]
    · rw [if_neg hyu]
      by_cases hxy : x = y
      · subst hxy
        have hxu : x ≠ u := fun hc => hyu hc
        simp [List.lookup, hxu]
      · have hbe : ¬(x == y) = true := by simpa using hxy
        simp only [List.lookup, hbe]
        simpa [hbe] using ih

theorem adjOf_appendAdj (g : Graph) (u : Vertex) (p : Vertex × Weight) (x : Vertex) :
    adjOf (appendAdj g u p) x =
      if x = u ∧ u ∈ keys g then adjOf g x ++ [p] else adjOf g x := by
  unfold adjOf
  rw [lookup_appendAdj]
  by_cases hxu : x = u
  · by_cases hk : u ∈ keys g
    · rw [if_pos hxu, if_pos (And.intro hxu hk)]
      obtain ⟨l, hl⟩ := Option.isSome_iff_exists.mp ((mem_keys_iff g u).mp hk)
      rw [hxu, hl]
      simp
    · rw [if_pos hxu, if_neg (fun hc => hk hc.2)]
      have hnone : g.lookup u = none := by
        cases hl : g.lookup u with
        | none => rfl
        | some l =>
          exact absurd ((mem_keys_iff g u).mpr (by simp [hl])) hk
      rw [hxu, hnone]
      simp
  · rw [if_neg hxu, if_neg (fun hc => hxu hc.1)]

theorem adjOf_addEdge (g : Graph) (e : MstEdge) (x : Vertex) :
    adjOf (addEdge g e) x =
      adjOf g x ++ ((if e.1 = x then [(e.2.1, e.2.2)] else []) ++
        (if e.2.1 = x then [(e.1, e.2.2)] else [])) := by
  unfold addEdge
  have hk1 : e.1 ∈ keys (addKey (addKey g e.1) e.2.1) := by
    rw [mem_keys_addKey, mem_keys_addKey]
    exact Or.inl (Or.inr rfl)
  have hk2 : e.2.1 ∈ keys (addKey (addKey g e.1) e.2.1) := by
    rw [mem_keys_addKey]
    exact Or.inr rfl
  rw [adjOf_appendAdj, keys_appendAdj, adjOf_appendAdj]
  simp only [adjOf_addKey]
  by_cases hx1 : x = e.1 <;> by_cases hx2 : x = e.2.1
  · rw [if_pos (And.intro hx2 hk2), if_pos (And.intro hx1 hk1), if_pos hx1.symm,
      if_pos hx2.symm]
    simp
  · rw [if_neg (fun hc => hx2 hc.1), if_pos (And.intro hx1 hk1), if_pos hx1.symm,
      if_neg (fun hc => hx2 hc.symm)]
    simp
  · rw [if_pos (And.intro hx2 hk2), if_neg (fun hc => hx1 hc.1),
      if_neg (fun hc => hx1 hc.symm), if_pos hx2.symm]
    simp
  · rw [if_neg (fun hc => hx2 hc.1), if_neg (fun hc => hx1 hc.1),
      if_neg (fun hc => hx1 hc.symm), if_neg (fun hc => hx2 hc.symm)]
    simp

theorem adjOf_foldl_addEdge (edges : List MstEdge) :
    ∀ (g0 : Graph) (x : Vertex),
      adjOf (edges.foldl addEdge g0) x = adjOf g0 x ++ specAdjEntries x edges := by
  induction edges with
  | nil => intro g0 x; simp [specAdjEntries]
  | cons e rest ih =>
    intro g0 x
    simp only [List.foldl_cons, specAdjEntries]
    rw [ih, adjOf_addEdge]
    simp [List.append_assoc]

theorem adjOf_foldl_addKey (nodes : List Vertex) :
    ∀ (g0 : Graph) (x : Vertex), adjOf (nodes.foldl addKey g0) x = adjOf g0 x := by
  induction nodes with
  | nil => intro g0 x; rfl
  | cons n rest ih =>
    intro g0 x
    simp only [List.foldl_cons]
    rw [ih, adjOf_addKey]

theorem mem_keys_addEdge (g : Graph) (e : MstEdge) (x : Vertex) :
    x ∈ keys (addEdge g e) ↔ x ∈ keys g ∨ x = e.1 ∨ x = e.2.1 := by
  unfold addEdge
  rw [keys_appendAdj, keys_appendAdj, mem_keys_addKey, mem_keys_addKey]
  tauto

theorem mem_keys_foldl_addEdge (edges : List MstEdge) :
    ∀ (g0 : Graph) (x : Vertex),
      x ∈ keys (edges.foldl addEdge g0) ↔
        x ∈ keys g0 ∨ ∃ e ∈ edges, x = e.1 ∨ x = e.2.1 := by
  induction edges with
  | nil => intro g0 x; simp
  | cons e rest ih =>
    intro g0 x
    simp only [List.foldl_cons]
    rw [ih, mem_keys_addEdge]
    constructor
    · rintro ((h | h | h) | ⟨f, hf, h⟩)
      · exact Or.inl h
      · exact Or.inr ⟨e, List.mem_cons_self _ _, Or.inl h⟩
      · exact Or.inr ⟨e, List.mem_cons_self _ _, Or.inr h⟩
      · exact Or.inr ⟨f, List.mem_cons_of_mem _ hf, h⟩
    · rintro (h | ⟨f, hf, h⟩)
      · exact Or.inl (Or.inl h)
      · rcases List.mem_cons.mp hf with rfl | hf'
        · exact Or.inl (Or.inr h)
        · exact Or.inr ⟨f, hf', h⟩

theorem mem_specAdjEntries_fst {e : MstEdge} {edges : List MstEdge} (he : e ∈ edges) :
    (e.2.1, e.2.2) ∈ specAdjEntries e.1 edges := by
  induction edges with
  | nil => simp at he
  | cons f rest ih =>
    simp only [specAdjEntries, List.mem_append]
    rcases List.mem_cons.mp he with rfl | hf
    · exact Or.inl (by simp)
    · exact Or.inr (ih hf)

theorem mem_specAdjEntries_snd {e : MstEdge} {edges : List MstEdge} (he : e ∈ edges) :
    (e.1, e.2.2) ∈ specAdjEntries e.2.1 edges := by
  induction edges with
  | nil => simp at he
  | cons f rest ih =>
    simp only [specAdjEntries, List.mem_append]
    rcases List.mem_cons.mp he with rfl | hf
    · exact Or.inl (by simp)
    · exact Or.inr (ih hf)

/-- C9: the loader never fails on vertices that occur only in edges — they end
up as keys of the result — and the built adjacency is symmetric: every input
edge `(u, v, w)` contributes `(v, w)` to the adjacency of `u` and `(u, w)`
to the adjacency of `v`.  Moreover every adjacency list is exactly the
entries contributed by the input edges in input order. -/
theorem load_graph_spec (nodes : List Vertex) (edges : List MstEdge) :
    (∀ e ∈ edges, e.1 ∈ keys (load_graph_from_json nodes edges) ∧
      e.2.1 ∈ keys (load_graph_from_json nodes edges) ∧
      isAdj (load_graph_from_json nodes edges) e.1 e.2.1 e.2.2 ∧
      isAdj (load_graph_from_json nodes edges) e.2.1 e.1 e.2.2) ∧
    (∀ x, adjOf (load_graph_from_json nodes edges) x = specAdjEntries x edges) := by
  have hchar : ∀ x, adjOf (load_graph_from_json nodes edges) x = specAdjEntries x edges := by
    intro x
    unfold load_graph_from_json
    rw [adjOf_foldl_addEdge, adjOf_foldl_addKey]
    rfl
  refine ⟨fun e he => ⟨?_, ?_, ?_, ?_⟩, hchar⟩
  · unfold load_graph_from_json
    rw [mem_keys_foldl_addEdge]
    exact Or.inr ⟨e, he, Or.inl rfl⟩
  · unfold load_graph_from_json
    rw [mem_keys_foldl_addEdge]
    exact Or.inr ⟨e, he, Or.inr rfl⟩
  · unfold isAdj
    rw [hchar]
    exact mem_specAdjEntries_fst he
  · unfold isAdj
    rw [hchar]
    exact mem_specAdjEntries_snd he

end Loader

section HeapLemmas

theorem mem_heapPush {h : List HeapEntry} {e e' : HeapEntry} :
    e' ∈ heapPush h e ↔ e' = e ∨ e' ∈ h := by
  unfold heapPush
  exact List.mem_orderedInsert entryLe

theorem sorted_heapPush {h : List HeapEntry} (e : HeapEntry)
    (hs : h.Sorted entryLe) : (heapPush h e).Sorted entryLe :=
  hs.orderedInsert e h

theorem mem_foldPush {v : Vertex} :
    ∀ (l : AdjList) (h0 : List HeapEntry) (e : HeapEntry),
      e ∈ l.foldl (fun h p => heapPush h (p.2, v, p.1)) h0 ↔
        e ∈ h0 ∨ ∃ p ∈ l, e = (p.2, v, p.1) := by
  intro l
  induction l with
  | nil => intro h0 e; simp
  | cons p t ih =>
    intro h0 e
    simp only [List.foldl_cons]
    rw [ih]
    constructor
    · rintro (h | ⟨q, hq, rfl⟩)
      · rcases mem_heapPush.mp h with rfl | h
        · exact Or.inr ⟨p, List.mem_cons_self _ _, rfl⟩
        · exact Or.inl h
      · exact Or.inr ⟨q, List.mem_cons_of_mem _ hq, rfl⟩
    · rintro (h | ⟨q, hq, rfl⟩)
      · exact Or.inl (mem_heapPush.mpr (Or.inr h))
      · rcases List.mem_cons.mp hq with rfl | hq'
        · exact Or.inl (mem_heapPush.mpr (Or.inl rfl))
        · exact Or.inr ⟨q, hq', rfl⟩

theorem sorted_foldPush {v : Vertex} :
    ∀ (l : AdjList) (h0 : List HeapEntry), h0.Sorted entryLe →
      (l.foldl (fun h p => heapPush h (p.2, v, p.1)) h0).Sorted entryLe := by
  intro l
  induction l with
  | nil => intro h0 hs; exact hs
  | cons p t ih =>
    intro h0 hs
    exact ih _ (sorted_heapPush _ hs)

theorem entryLe_weight {a b : HeapEntry} (h : entryLe a b) : a.1 ≤ b.1 := by
  rcases h with h | ⟨h, _⟩
  · exact le_of_lt h
  · exact le_of_eq h

theorem sorted_head_min {e : HeapEntry} {rest : List HeapEntry}
    (hs : (e :: rest).Sorted entryLe) : ∀ x ∈ rest, e.1 ≤ x.1 := by
  intro x hx
  exact entryLe_weight ((List.sorted_cons.mp hs).1 x hx)

end HeapLemmas

section StepEquations

theorem primLoop_nil_eq (g : Graph) (visited : Finset Vertex) (mst : List MstEdge)
    (total : Weight) (events : List TraceEvent) (step : Nat) :
    primLoop g visited [] mst total events step =
      .ok (mst, total, events ++ [.runFinished total mst (visited.card != g.length)]) := by
  rw [primLoop]

theorem primLoop_stop_eq (g : Graph) (visited : Finset Vertex) (w : Weight) (u v : Vertex)
    (rest : List HeapEntry) (mst : List MstEdge) (total : Weight)
    (events : List TraceEvent) (step : Nat) (hcard : ¬ visited.card < g.length) :
    primLoop g visited ((w, u, v) :: rest) mst total events step =
      .ok (mst, total, events ++ [.runFinished total mst (visited.card != g.length)]) := by
  rw [primLoop]
  rw [dif_neg hcard]

theorem primLoop_skip_eq (g : Graph) (visited : Finset Vertex) (w : Weight) (u v : Vertex)
    (rest : List HeapEntry) (mst : List MstEdge) (total : Weight)
    (events : List TraceEvent) (step : Nat)
    (hcard : visited.card < g.length) (hv : v ∈ visited) :
    primLoop g visited ((w, u, v) :: rest) mst total events step =
      primLoop g visited rest mst total
        (events ++ [.frontierSnapshot step ((w, u, v) :: rest), .edgeSkipped u v])
        (step + 1) := by
  rw [primLoop]
  rw [dif_pos hcard, dif_pos hv]

theorem primLoop_err_eq (g : Graph) (visited : Finset Vertex) (w : Weight) (u v : Vertex)
    (rest : List HeapEntry) (mst : List MstEdge) (total : Weight)
    (events : List TraceEvent) (step : Nat)
    (hcard : visited.card < g.length) (hv : v ∉ visited) (hl : g.lookup v = none) :
    primLoop g visited ((w, u, v) :: rest) mst total events step =
      .error (.missingVertex v) := by
  rw [primLoop]
  rw [dif_pos hcard, dif_neg hv]
  split
  · rfl
  · rename_i adjv hl'
    rw [hl] at hl'
    cases hl'

theorem primLoop_select_eq (g : Graph) (visited : Finset Vertex) (w : Weight) (u v : Vertex)
    (rest : List HeapEntry) (mst : List MstEdge) (total : Weight)
    (events : List TraceEvent) (step : Nat) (adjv : AdjList)
    (hcard : visited.card < g.length) (hv : v ∉ visited) (hl : g.lookup v = some adjv) :
    primLoop g visited ((w, u, v) :: rest) mst total events step =
      primLoop g (insert v visited)
        ((adjv.filter fun p => decide (p.1 ∉ insert v visited)).foldl
          (fun h p => heapPush h (p.2, v, p.1)) rest)
        (mst ++ [(u, v, w)]) (total + w)
        (events ++ [.frontierSnapshot step ((w, u, v) :: rest),
          .edgeSelected u v w ((insert v visited).sort (· ≤ ·)) (mst ++ [(u, v, w)])
            (total + w),
          .frontierExpanded v ((adjv.filter fun p => decide (p.1 ∉ insert v visited)).map
            fun p => (v, p.1, p.2))])
        (step + 1) := by
  rw [primLoop]
  rw [dif_pos hcard, dif_neg hv]
  split
  · rename_i hl'
    rw [hl] at hl'
    cases hl'
  · rename_i adjv' hl'
    rw [hl] at hl'
    cases hl'
    rfl

end StepEquations

section InvariantPreservation

/-- Monotonicity of list-induced connectivity under edge-list extension. -/
theorem reachE_mono {l l' : List MstEdge} (hsub : ∀ e ∈ l, e ∈ l') {a b : Vertex}
    (h : ReachE l a b) : ReachE l' a b := by
  induction h with
  | refl => exact Relation.ReflTransGen.refl
  | tail _ hstep ih =>
    obtain ⟨w, hw | hw⟩ := hstep
    · exact ih.tail ⟨w, Or.inl (hsub _ hw)⟩
    · exact ih.tail ⟨w, Or.inr (hsub _ hw)⟩

/-- The invariant holds in the state `run` hands to the loop. -/
theorem inv_init (g : Graph) (s : Vertex) (hs : s ∈ keys g) :
    Inv g s {s} ((adjOf g s).foldl (fun h p => heapPush h (p.2, s, p.1)) []) [] 0 := by
  constructor
  · exact Finset.mem_singleton_self s
  · intro x hx
    rw [Finset.mem_singleton] at hx
    exact hx ▸ hs
  · intro x hx
    rw [Finset.mem_singleton] at hx
    exact hx ▸ Relation.ReflTransGen.refl
  · exact sorted_foldPush _ _ (List.sorted_nil)
  · intro e he
    rcases (mem_foldPush _ _ _).mp he with h | ⟨p, hp, rfl⟩
    · simp at h
    · exact ⟨Finset.mem_singleton_self s, hp⟩
  · intro x hx y w hadj
    rw [Finset.mem_singleton] at hx
    subst hx
    exact Or.inr ((mem_foldPush _ _ _).mpr (Or.inr ⟨(y, w), hadj, rfl⟩))
  · simp
  · intro e he; simp at he
  · simp
  · simp
  · intro e he; simp at he
  · intro e he; simp at he
  · intro x hx
    rw [Finset.mem_singleton] at hx
    exact hx ▸ Relation.ReflTransGen.refl
  · simp

/-- Skipping a stale heap entry preserves the invariant. -/
theorem inv_skip {g : Graph} {s : Vertex} {visited : Finset Vertex} {w : Weight}
    {u v : Vertex} {rest : List HeapEntry} {mst : List MstEdge} {total : Weight}
    (inv : Inv g s visited ((w, u, v) :: rest) mst total) (hv : v ∈ visited) :
    Inv g s visited rest mst total := by
  obtain ⟨h1, h2, h3, h4, h5, h6, h7, h8, h9, h10, h11, h12, h13, h14⟩ := inv
  refine ⟨h1, h2, h3, (List.sorted_cons.mp h4).2, ?_, ?_, h7, h8, h9, h10, h11, h12, h13, h14⟩
  · intro e he
    exact h5 e (List.mem_cons_of_mem _ he)
  · intro x hx y w' hadj
    rcases h6 x hx y w' hadj with h | h
    · exact Or.inl h
    · rcases List.mem_cons.mp h with heq | h
      · cases heq
        exact Or.inl hv
      · exact Or.inr h

/-- Selecting a fresh edge preserves the invariant. -/
theorem inv_select {g : Graph} {s : Vertex} {visited : Finset Vertex} {w : Weight}
    {u v : Vertex} {rest : List HeapEntry} {mst : List MstEdge} {total : Weight}
    {adjv : AdjList}
    (inv : Inv g s visited ((w, u, v) :: rest) mst total) (hv : v ∉ visited)
    (hl : g.lookup v = some adjv) :
    Inv g s (insert v visited)
      ((adjv.filter fun p => decide (p.1 ∉ insert v visited)).foldl
        (fun h p => heapPush h (p.2, v, p.1)) rest)
      (mst ++ [(u, v, w)]) (total + w) := by
  obtain ⟨h1, h2, h3, h4, h5, h6, h7, h8, h9, h10, h11, h12, h13, h14⟩ := inv
  have hhead := h5 (w, u, v) (List.mem_cons_self _ _)
  have huv : u ∈ visited := hhead.1
  have hadjuv : isAdj g u v w := hhead.2
  have hvkeys : v ∈ keys g := (mem_keys_iff g v).mpr (by simp [hl])
  have hadjv_eq : adjOf g v = adjv := adjOf_eq_of_lookup hl
  have hreach_v : Reach g s v := (h3 u huv).tail ⟨w, hadjuv⟩
  have hsub : visited ⊆ insert v visited := Finset.subset_insert _ _
  have hmstsub : ∀ e ∈ mst, e ∈ mst ++ [(u, v, w)] := fun e he => List.mem_append_left _ he
  have huvmem : (u, v, w) ∈ mst ++ [(u, v, w)] := List.mem_append_right _ (by simp)
  constructor
  · exact hsub h1
  · intro x hx
    rcases Finset.mem_insert.mp hx with rfl | hx
    · exact hvkeys
    · exact h2 x hx
  · intro x hx
    rcases Finset.mem_insert.mp hx with rfl | hx
    · exact hreach_v
    · exact h3 x hx
  · exact sorted_foldPush _ _ (List.sorted_cons.mp h4).2
  · intro e he
    rcases (mem_foldPush _ _ _).mp he with h | ⟨p, hp, rfl⟩
    · have := h5 e (List.mem_cons_of_mem _ h)
      exact ⟨hsub this.1, this.2⟩
    · have hpadj : p ∈ adjv := (List.mem_filter.mp hp).1
      refine ⟨Finset.mem_insert_self _ _, ?_⟩
      unfold isAdj
      rw [hadjv_eq]
      simpa using hpadj
  · intro x hx y w' hadj
    rcases Finset.mem_insert.mp hx with rfl | hx
    · have hyadj : (y, w') ∈ adjv := by
        unfold isAdj at hadj
        rwa [hadjv_eq] at hadj
      by_cases hy : y ∈ insert x visited
      · exact Or.inl hy
      · refine Or.inr ((mem_foldPush _ _ _).mpr (Or.inr ⟨(y, w'), ?_, rfl⟩))
        exact List.mem_filter.mpr ⟨hyadj, by simpa using hy⟩
    · rcases h6 x hx y w' hadj with h | h
      · exact Or.inl (hsub h)
      · rcases List.mem_cons.mp h with heq | h
        · cases heq
          exact Or.inl (Finset.mem_insert_self _ _)
        · exact Or.inr ((mem_foldPush _ _ _).mpr (Or.inl h))
  · rw [Finset.card_insert_of_not_mem hv, h7]
    simp
  · intro e he
    rcases List.mem_append.mp he with h | h
    · have := h8 e h
      exact ⟨this.1, hsub this.2.1, hsub this.2.2⟩
    · rcases List.mem_singleton.mp h with rfl
      exact ⟨hadjuv, hsub huv, Finset.mem_insert_self _ _⟩
  · rw [List.map_append]
    rw [List.nodup_append]
    refine ⟨h9, List.nodup_singleton _, ?_⟩
    intro a ha hb
    rcases List.mem_singleton.mp (by simpa using hb) with rfl
    have : a ∈ visited := by
      rcases List.mem_map.mp ha with ⟨e, he, rfl⟩
      exact (h8 e he).2.2
    exact hv this
  · rw [List.map_append]
    intro hmem
    rcases List.mem_append.mp hmem with h | h
    · exact h10 h
    · rcases List.mem_singleton.mp (by simpa using h) with rfl
      exact hv h1
  · intro e he
    rcases List.mem_append.mp he with h | h
    · exact h11 e h
    · rcases List.mem_singleton.mp h with rfl
      intro hc
      have hc' : u = v := hc
      exact hv (hc' ▸ huv)
  · intro e he e' he' hne
    have key : ∀ f ∈ mst, pairOf f ≠ pairOf (u, v, w) := by
      intro f hf heq
      have hvmem : v ∈ pairOf (u, v, w) := by simp [pairOf]
      rw [← heq] at hvmem
      have : v = f.1 ∨ v = f.2.1 := by
        simpa [pairOf, Finset.mem_insert, Finset.mem_singleton] using hvmem
      rcases this with rfl | rfl
      · exact hv (h8 f hf).2.1
      · exact hv (h8 f hf).2.2
    rcases List.mem_append.mp he with h | h
    · rcases List.mem_append.mp he' with h' | h'
      · exact h12 e h e' h' hne
      · rcases List.mem_singleton.mp h' with rfl
        exact key e h
    · rcases List.mem_singleton.mp h with rfl
      rcases List.mem_append.mp he' with h' | h'
      · exact fun hc => key e' h' hc.symm
      · rcases List.mem_singleton.mp h' with rfl
        exact absurd rfl hne
  · intro x hx
    rcases Finset.mem_insert.mp hx with rfl | hx
    · exact (reachE_mono hmstsub (h13 u huv)).tail ⟨w, Or.inl huvmem⟩
    · exact reachE_mono hmstsub (h13 x hx)
  · rw [List.map_append, List.sum_append, h14]
    simp

end InvariantPreservation

section LoopCorrectness

/-- Whenever the loop returns successfully, the invariant holds of a final
state whose MST list and total are the returned ones, the loop exit
condition holds, the visited set only grew, and the last event is the
`RunFinished` report with the disconnection flag. -/
theorem primLoop_ok_spec (g : Graph) (s : Vertex) (visited : Finset Vertex)
    (heap : List HeapEntry) (mst : List MstEdge) (total : Weight)
    (events : List TraceEvent) (step : Nat) :
    ∀ (mstF : List MstEdge) (totalF : Weight) (evF : List TraceEvent),
      Inv g s visited heap mst total →
      primLoop g visited heap mst total events step = .ok (mstF, totalF, evF) →
      ∃ visitedF heapF, Inv g s visitedF heapF mstF totalF ∧
        (heapF = [] ∨ ¬ visitedF.card < g.length) ∧ visited ⊆ visitedF ∧
        evF.getLast? = some (.runFinished totalF mstF (visitedF.card != g.length)) := by
  induction visited, heap, mst, total, events, step using primLoop.induct g with
  | case1 visited mst total events step =>
    intro mstF totalF evF inv heq
    rw [primLoop_nil_eq] at heq
    simp only [Except.ok.injEq, Prod.mk.injEq] at heq
    obtain ⟨rfl, rfl, rfl⟩ := heq
    exact ⟨visited, [], inv, Or.inl rfl, Finset.Subset.refl _, List.getLast?_concat _⟩
  | case2 visited mst total events step w u v rest hcard hv ih =>
    intro mstF totalF evF inv heq
    rw [primLoop_skip_eq g visited w u v rest mst total events step hcard hv] at heq
    exact ih mstF totalF evF (inv_skip inv hv) heq
  | case3 visited mst total events step w u v rest hcard hv hl =>
    intro mstF totalF evF inv heq
    rw [primLoop_err_eq g visited w u v rest mst total events step hcard hv hl] at heq
    simp at heq
  | case4 visited mst total events step w u v rest hcard hv adjv hl ih =>
    intro mstF totalF evF inv heq
    rw [primLoop_select_eq g visited w u v rest mst total events step adjv hcard hv hl] at heq
    obtain ⟨visitedF, heapF, invF, hexit, hsub, hlast⟩ :=
      ih mstF totalF evF (inv_select inv hv hl) heq
    exact ⟨visitedF, heapF, invF, hexit,
      Finset.Subset.trans (Finset.subset_insert _ _) hsub, hlast⟩
  | case5 visited mst total events step w u v rest hcard =>
    intro mstF totalF evF inv heq
    rw [primLoop_stop_eq g visited w u v rest mst total events step hcard] at heq
    simp only [Except.ok.injEq, Prod.mk.injEq] at heq
    obtain ⟨rfl, rfl, rfl⟩ := heq
    exact ⟨visited, (w, u, v) :: rest, inv, Or.inr hcard, Finset.Subset.refl _,
      List.getLast?_concat _⟩

/-- On a closed graph the loop cannot fail: the invariant guarantees every
popped candidate vertex is a key, so the adjacency lookup succeeds. -/
theorem primLoop_isOk (g : Graph) (s : Vertex) (visited : Finset Vertex)
    (heap : List HeapEntry) (mst : List MstEdge) (total : Weight)
    (events : List TraceEvent) (step : Nat) :
    ClosedG g → Inv g s visited heap mst total →
    ∃ r, primLoop g visited heap mst total events step = .ok r := by
  induction visited, heap, mst, total, events, step using primLoop.induct g with
  | case1 visited mst total events step =>
    intro _ _
    exact ⟨_, primLoop_nil_eq g visited mst total events step⟩
  | case2 visited mst total events step w u v rest hcard hv ih =>
    intro hC inv
    rw [primLoop_skip_eq g visited w u v rest mst total events step hcard hv]
    exact ih hC (inv_skip inv hv)
  | case3 visited mst total events step w u v rest hcard hv hl =>
    intro hC inv
    exfalso
    have := (inv.heap_src (w, u, v) (List.mem_cons_self _ _)).2
    have hvk : v ∈ keys g := isAdj_mem_keys hC this
    rw [mem_keys_iff, hl] at hvk
    simp at hvk
  | case4 visited mst total events step w u v rest hcard hv adjv hl ih =>
    intro hC inv
    rw [primLoop_select_eq g visited w u v rest mst total events step adjv hcard hv hl]
    exact ih hC (inv_select inv hv hl)
  | case5 visited mst total events step w u v rest hcard =>
    intro _ _
    exact ⟨_, primLoop_stop_eq g visited w u v rest mst total events step hcard⟩

/-- The loop never raises the unknown-start-vertex error: its only failure is
the adjacency `KeyError`. -/
theorem primLoop_error_shape (g : Graph) (visited : Finset Vertex)
    (heap : List HeapEntry) (mst : List MstEdge) (total : Weight)
    (events : List TraceEvent) (step : Nat) :
    ∀ e, primLoop g visited heap mst total events step = .error e →
      ∃ v, e = .missingVertex v := by
  induction visited, heap, mst, total, events, step using primLoop.induct g with
  | case1 visited mst total events step =>
    intro e heq
    rw [primLoop_nil_eq] at heq
    simp at heq
  | case2 visited mst total events step w u v rest hcard hv ih =>
    intro e heq
    rw [primLoop_skip_eq g visited w u v rest mst total events step hcard hv] at heq
    exact ih e heq
  | case3 visited mst total events step w u v rest hcard hv hl =>
    intro e heq
    rw [primLoop_err_eq g visited w u v rest mst total events step hcard hv hl] at heq
    simp only [Except.error.injEq] at heq
    exact ⟨v, heq.symm⟩
  | case4 visited mst total events step w u v rest hcard hv adjv hl ih =>
    intro e heq
    rw [primLoop_select_eq g visited w u v rest mst total events step adjv hcard hv hl] at heq
    exact ih e heq
  | case5 visited mst total events step w u v rest hcard =>
    intro e heq
    rw [primLoop_stop_eq g visited w u v rest mst total events step hcard] at heq
    simp at heq

/-- Final-state characterisation of a successful `run`. -/
theorem run_ok_spec {g : Graph} {s : Vertex} {p : Bool} {mstF : List MstEdge}
    {totalF : Weight} {evF : List TraceEvent}
    (h : run g s p = .ok (mstF, totalF, evF)) :
    ∃ visitedF heapF, Inv g s visitedF heapF mstF totalF ∧
      (heapF = [] ∨ ¬ visitedF.card < g.length) ∧
      evF.getLast? = some (.runFinished totalF mstF (visitedF.card != g.length)) := by
  unfold run at h
  by_cases hs : s ∈ keys g
  · rw [if_pos hs] at h
    obtain ⟨visitedF, heapF, invF, hexit, _, hlast⟩ :=
      primLoop_ok_spec g s _ _ _ _ _ _ mstF totalF evF (inv_init g s hs) h
    exact ⟨visitedF, heapF, invF, hexit, hlast⟩
  · rw [if_neg hs] at h
    simp at h

/-- A `run` from a key of a closed graph always returns successfully. -/
theorem run_ok_exists (g : Graph) (s : Vertex) (p : Bool)
    (hC : ClosedG g) (hs : s ∈ keys g) : ∃ r, run g s p = .ok r := by
  unfold run
  rw [if_pos hs]
  exact primLoop_isOk g s _ _ _ _ _ _ hC (inv_init g s hs)

end LoopCorrectness

section ErrorHandling

/-- C3: `run` fails with the unknown-start-vertex error exactly when the start
is not a key of the graph (in that case the check precedes any traversal,
so no MST output exists — the error carries no partial result), and on a
closed graph a run from any key never fails. -/
theorem run_unknown_start_iff (g : Graph) (s : Vertex) (p : Bool) :
    (run g s p = .error (.unknownStartVertex s) ↔ s ∉ keys g) ∧
    (ClosedG g → s ∈ keys g → ∃ r, run g s p = .ok r) := by
  refine ⟨⟨?_, ?_⟩, run_ok_exists g s p⟩
  · intro h hs
    unfold run at h
    rw [if_pos hs] at h
    obtain ⟨v, hv⟩ := primLoop_error_shape g _ _ _ _ _ _ _ h
    cases hv
  · intro hs
    unfold run
    rw [if_neg hs]

/-- Witness for C3 on a concrete two-vertex graph. -/
theorem run_unknown_start_iff_witness :
    (run [("A", [("B", (1 : Weight))]), ("B", [("A", 1)])] "Z" false =
      .error (.unknownStartVertex "Z")) ∧
    (∃ r, run [("A", [("B", (1 : Weight))]), ("B", [("A", 1)])] "A" false = .ok r) :=
  ⟨(run_unknown_start_iff [("A", [("B", (1 : Weight))]), ("B", [("A", 1)])] "Z" false).1.mpr
      (by decide),
    (run_unknown_start_iff [("A", [("B", (1 : Weight))]), ("B", [("A", 1)])] "A" false).2
      (by decide) (by decide)⟩

end ErrorHandling

section WeightSum

/-- C10: whenever `run` returns `(mstEdges, totalWeight)`, the total equals the
sum of the weight components of the selected edges, and no candidate vertex
is selected twice (the second components of the MST edges are distinct), so
the selected edge set is acyclic. -/
theorem run_weight_sum (g : Graph) (s : Vertex) (p : Bool) (mst : List MstEdge)
    (total : Weight) (ev : List TraceEvent) (h : run g s p = .ok (mst, total, ev)) :
    total = (mst.map fun e => e.2.2).sum ∧ (mst.map fun e => e.2.1).Nodup := by
  obtain ⟨visitedF, heapF, invF, _, _⟩ := run_ok_spec h
  exact ⟨invF.total_eq, invF.mst_seconds⟩

/-- Witness for C10 on a concrete run. -/
theorem run_weight_sum_witness :
    ∃ mst total ev,
      run [("A", [("B", (1 : Weight))]), ("B", [("A", 1)])] "A" false =
        .ok (mst, total, ev) ∧
      total = (mst.map fun e => e.2.2).sum ∧ (mst.map fun e => e.2.1).Nodup := by
  obtain ⟨r, hr⟩ :=
    run_ok_exists [("A", [("B", (1 : Weight))]), ("B", [("A", 1)])] "A" false
      (by decide) (by decide)
  obtain ⟨mst, total, ev⟩ := r
  exact ⟨mst, total, ev, hr,
    run_weight_sum [("A", [("B", (1 : Weight))]), ("B", [("A", 1)])] "A" false
      mst total ev hr⟩

end WeightSum

section Disconnected

theorem keys_length (g : Graph) : (keys g).length = g.length := by
  simp [keys]

theorem keysFinset_card {g : Graph} (hN : (keys g).Nodup) :
    (keys g).toFinset.card = g.length := by
  rw [List.toFinset_card_of_nodup hN, keys_length]

/-- In a successful final state, the visited set is exactly the set of keys
reachable from the start, provided the heap is exhausted. -/
theorem final_visited_eq_component {g : Graph} {s : Vertex} {visitedF : Finset Vertex}
    {mstF : List MstEdge} {totalF : Weight}
    (invF : Inv g s visitedF [] mstF totalF) :
    ∀ x, x ∈ visitedF ↔ x ∈ keys g ∧ Reach g s x := by
  intro x
  constructor
  · intro hx
    exact ⟨invF.visited_keys x hx, invF.visited_reach x hx⟩
  · rintro ⟨_, hreach⟩
    refine reach_subset_closed (S := fun y => y ∈ visitedF) ?_ invF.start_mem x hreach
    intro a ha y w hadj
    rcases invF.cover a ha y w hadj with h | h
    · exact h
    · simp at h

/-- C2: on a closed graph whose keys are distinct, a run from a key `s` of a
disconnected graph (some key unreachable from `s`) still returns
successfully; its final event reports `disconnected = true`; and the
selected edges form a spanning tree of the component of `s` only: there is
exactly one selected edge less than there are vertices in that component,
and both endpoints of every selected edge lie inside the component. -/
theorem run_disconnected_spec (g : Graph) (s : Vertex) (p : Bool)
    (hC : ClosedG g) (hN : (keys g).Nodup) (hs : s ∈ keys g)
    (hdisc : ∃ x ∈ keys g, ¬ Reach g s x) :
    ∃ mst total ev, run g s p = .ok (mst, total, ev) ∧
      ev.getLast? = some (.runFinished total mst true) ∧
      ∃ comp : Finset Vertex, (∀ x, x ∈ comp ↔ x ∈ keys g ∧ Reach g s x) ∧
        mst.length + 1 = comp.card ∧ ∀ e ∈ mst, e.1 ∈ comp ∧ e.2.1 ∈ comp := by
  obtain ⟨r, hr⟩ := run_ok_exists g s p hC hs
  obtain ⟨mst, total, ev⟩ := r
  obtain ⟨visitedF, heapF, invF, hexit, hlast⟩ := run_ok_spec hr
  obtain ⟨z, hzk, hznr⟩ := hdisc
  have hsubkeys : visitedF ⊆ (keys g).toFinset := by
    intro x hx
    rw [List.mem_toFinset]
    exact invF.visited_keys x hx
  have hznotvis : z ∉ visitedF := fun hc => hznr (invF.visited_reach z hc)
  have hssub : visitedF ⊂ (keys g).toFinset :=
    ⟨hsubkeys, fun hc => hznotvis (hc (List.mem_toFinset.mpr hzk))⟩
  have hcardlt : visitedF.card < g.length := by
    have := Finset.card_lt_card hssub
    rwa [keysFinset_card hN] at this
  have hheap : heapF = [] := by
    rcases hexit with h | h
    · exact h
    · exact absurd hcardlt h
  subst hheap
  have hcomp := final_visited_eq_component invF
  refine ⟨mst, total, ev, hr, ?_, visitedF, hcomp, invF.card_mst.symm, ?_⟩
  · have hflag : (visitedF.card != g.length) = true := by
      simp only [bne_iff_ne, ne_eq]
      omega
    rwa [hflag] at hlast
  · intro e he
    exact ⟨(invF.mst_src e he).2.1, (invF.mst_src e he).2.2⟩

/-- Witness for C2 on the concrete disconnected graph with component `{A, B}`
and isolated vertex `C`. -/
theorem run_disconnected_spec_witness :
    (∃ x ∈ keys [("A", [("B", (1 : Weight))]), ("B", [("A", 1)]), ("C", [])],
      ¬ Reach [("A", [("B", (1 : Weight))]), ("B", [("A", 1)]), ("C", [])] "A" x) ∧
    ∃ mst total ev,
      run [("A", [("B", (1 : Weight))]), ("B", [("A", 1)]), ("C", [])] "A" false =
        .ok (mst, total, ev) ∧
      ev.getLast? = some (.runFinished total mst true) ∧
      ∃ comp : Finset Vertex,
        (∀ x, x ∈ comp ↔ x ∈ keys [("A", [("B", (1 : Weight))]), ("B", [("A", 1)]), ("C", [])] ∧
          Reach [("A", [("B", (1 : Weight))]), ("B", [("A", 1)]), ("C", [])] "A" x) ∧
        mst.length + 1 = comp.card ∧ ∀ e ∈ mst, e.1 ∈ comp ∧ e.2.1 ∈ comp := by
  have hnr : ¬ Reach [("A", [("B", (1 : Weight))]), ("B", [("A", 1)]), ("C", [])] "A" "C" := by
    intro h
    have hcl := reach_subset_closed
      (g := [("A", [("B", (1 : Weight))]), ("B", [("A", 1)]), ("C", [])])
      (S := fun y => y = "A" ∨ y = "B") ?_ (Or.inl rfl) "C" h
    · rcases hcl with hc | hc <;> simp at hc
    · rintro x (rfl | rfl) y w hadj
      · have : (y, w) ∈ [("B", (1 : Weight))] := hadj
        simp only [List.mem_singleton, Prod.mk.injEq] at this
        exact Or.inr this.1
      · have : (y, w) ∈ [("A", (1 : Weight))] := hadj
        simp only [List.mem_singleton, Prod.mk.injEq] at this
        exact Or.inl this.1
  exact ⟨⟨"C", by decide, hnr⟩,
    run_disconnected_spec [("A", [("B", (1 : Weight))]), ("B", [("A", 1)]), ("C", [])] "A"
      false (by decide) (by decide) (by decide) ⟨"C", by decide, hnr⟩⟩

end Disconnected

section Termination

/-- The loop needs at most `(|V| - |visited|) * (E + 1) + |heap|` iterations:
with that much fuel, the fuel-indexed loop succeeds and agrees with the
loop itself. -/
theorem primLoopFuel_eq (g : Graph) (visited : Finset Vertex) (heap : List HeapEntry)
    (mst : List MstEdge) (total : Weight) (events : List TraceEvent) (step : Nat) :
    ∀ fuel, (g.length - visited.card) * (totalAdjLen g + 1) + heap.length < fuel →
      primLoopFuel g fuel visited heap mst total events step =
        some (primLoop g visited heap mst total events step) := by
  induction visited, heap, mst, total, events, step using primLoop.induct g with
  | case1 visited mst total events step =>
    intro fuel hf
    match fuel with
    | n + 1 =>
      rw [primLoop_nil_eq]
      rfl
  | case2 visited mst total events step w u v rest hcard hv ih =>
    intro fuel hf
    match fuel with
    | n + 1 =>
      rw [primLoop_skip_eq g visited w u v rest mst total events step hcard hv]
      have hstep : primLoopFuel g (n + 1) visited ((w, u, v) :: rest) mst total events step =
          primLoopFuel g n visited rest mst total
            (events ++ [.frontierSnapshot step ((w, u, v) :: rest), .edgeSkipped u v])
            (step + 1) := by
        rw [primLoopFuel]
        rw [if_pos hcard, if_pos hv]
      rw [hstep]
      apply ih
      simp only [List.length_cons] at hf
      omega
  | case3 visited mst total events step w u v rest hcard hv hl =>
    intro fuel hf
    match fuel with
    | n + 1 =>
      rw [primLoop_err_eq g visited w u v rest mst total events step hcard hv hl]
      rw [primLoopFuel]
      rw [if_pos hcard, if_neg hv, hl]
  | case4 visited mst total events step w u v rest hcard hv adjv hl ih =>
    intro fuel hf
    match fuel with
    | n + 1 =>
      rw [primLoop_select_eq g visited w u v rest mst total events step adjv hcard hv hl]
      have hstep : primLoopFuel g (n + 1) visited ((w, u, v) :: rest) mst total events step =
          primLoopFuel g n (insert v visited)
            ((adjv.filter fun p => decide (p.1 ∉ insert v visited)).foldl
              (fun h p => heapPush h (p.2, v, p.1)) rest)
            (mst ++ [(u, v, w)]) (total + w)
            (events ++ [.frontierSnapshot step ((w, u, v) :: rest),
              .edgeSelected u v w ((insert v visited).sort (· ≤ ·)) (mst ++ [(u, v, w)])
                (total + w),
              .frontierExpanded v ((adjv.filter fun p => decide (p.1 ∉ insert v visited)).map
                fun p => (v, p.1, p.2))])
            (step + 1) := by
        rw [primLoopFuel]
        rw [if_pos hcard, if_neg hv, hl]
      rw [hstep]
      apply ih
      have h1 := foldPush_length_fact (adjv.filter fun p => decide (p.1 ∉ insert v visited))
        v rest
      have h2 : (adjv.filter fun p => decide (p.1 ∉ insert v visited)).length ≤ adjv.length :=
        List.length_filter_le _ _
      have h3 : adjv.length ≤ totalAdjLen g := lookup_length_fact g v adjv hl
      have h4 : (insert v visited).card = visited.card + 1 := Finset.card_insert_of_not_mem hv
      have h5 : g.length - visited.card = (g.length - (insert v visited).card) + 1 := by omega
      rw [h5] at hf
      rw [Nat.add_mul, one_mul] at hf
      simp only [List.length_cons] at hf
      omega
  | case5 visited mst total events step w u v rest hcard =>
    intro fuel hf
    match fuel with
    | n + 1 =>
      rw [primLoop_stop_eq g visited w u v rest mst total events step hcard]
      rw [primLoopFuel]
      rw [if_neg hcard]

/-- C8: `run` terminates on every graph and start vertex — the fuel-indexed
run, whose main loop can only iterate as often as it has fuel, succeeds
with the explicit bound `(|V| + 1) * (E + 1)` (one fuel unit per loop
iteration: each iteration pops one frontier entry, entries are pushed only
when a vertex is newly visited, and the visited set is bounded by the
vertex count) and returns exactly the result of `run`. -/
theorem run_terminates (g : Graph) (s : Vertex) :
    runFuel g s (fuelBound g) = some (run g s false) := by
  unfold runFuel run
  by_cases hs : s ∈ keys g
  · rw [if_pos hs, if_pos hs]
    apply primLoopFuel_eq
    have hlen : ((adjOf g s).foldl (fun h p => heapPush h (p.2, s, p.1)) []).length =
        (adjOf g s).length := by
      rw [foldPush_length_fact]
      simp
    have hadj : (adjOf g s).length ≤ totalAdjLen g := by
      obtain ⟨l, hl⟩ := Option.isSome_iff_exists.mp ((mem_keys_iff g s).mp hs)
      rw [adjOf_eq_of_lookup hl]
      exact lookup_length_fact g s l hl
    have hg : 1 ≤ g.length := by
      cases g with
      | nil => simp [keys] at hs
      | cons p rest => simp
    rw [hlen]
    have hmul : (g.length - Finset.card {s}) * (totalAdjLen g + 1) ≤
        (g.length - 1) * (totalAdjLen g + 1) := by
      apply Nat.mul_le_mul_right
      simp
    have hexp : fuelBound g = (g.length - 1) * (totalAdjLen g + 1) +
        2 * (totalAdjLen g + 1) := by
      unfold fuelBound
      have : g.length + 1 = (g.length - 1) + 2 := by omega
      rw [this, Nat.add_mul]
    rw [hexp]
    omega
  · rw [if_neg hs, if_neg hs]

end Termination

section BfsCorrectness

theorem head?_append_of_some {α : Type} {l l' : List α} {a : α} (h : l.head? = some a) :
    (l ++ l').head? = some a := by
  cases l with
  | nil => simp at h
  | cons b t => simpa using h

theorem parentsProp_append {adj : Graph} {start : Vertex} {prev : Prev} {nb node : Vertex}
    (hp : ParentsProp adj start prev) (hnode : node ∈ prev.map Prod.fst)
    (hstep : adjStep adj node nb) : ParentsProp adj start (prev ++ [(nb, some node)]) := by
  intro i hi
  by_cases hlt : i < prev.length
  · have heq : (prev ++ [(nb, some node)]).get ⟨i, hi⟩ = prev.get ⟨i, hlt⟩ :=
      List.get_append i hlt
    rw [heq]
    obtain ⟨h1, h2⟩ := hp i hlt
    refine ⟨h1, fun pa hpa => ?_⟩
    obtain ⟨hs, j, hj, hji, hgj⟩ := h2 pa hpa
    refine ⟨hs, j, by simp; omega, hji, ?_⟩
    rw [List.get_append j hj]
    exact hgj
  · have hieq : i = prev.length := by
      simp only [List.length_append, List.length_cons, List.length_nil] at hi
      omega
    have hget : (prev ++ [(nb, some node)]).get ⟨i, hi⟩ = (nb, some node) := by
      subst hieq
      simp
    rw [hget]
    refine ⟨fun h => absurd h (by simp), fun pa hpa => ?_⟩
    have hpa' : node = pa := by
      simpa using hpa
    subst hpa'
    refine ⟨hstep, ?_⟩
    obtain ⟨e, hemem, he1⟩ := List.mem_map.mp hnode
    obtain ⟨⟨j, hj⟩, hgj⟩ := List.mem_iff_get.mp hemem
    refine ⟨j, by simp; omega, by omega, ?_⟩
    rw [List.get_append j hj, hgj, he1]

theorem bfsScan_spec (adj : Graph) (start target node : Vertex) :
    ∀ (l : AdjList) (q : List Vertex) (prev : Prev),
      (∀ p ∈ l, p ∈ adjOf adj node) →
      node ∈ prev.map Prod.fst →
      (prev.map Prod.fst).Nodup →
      prev.head? = some (start, none) →
      ParentsProp adj start prev →
      (∀ x ∈ prev.map Prod.fst, Reach adj start x) →
      (∀ x ∈ q, x ∈ prev.map Prod.fst) →
      q.Nodup →
      ScanOut adj start target node l q prev (bfsScan target node l q prev) := by
  intro l
  induction l with
  | nil =>
    intro q prev hl hnode hkn hhead hpar hreach hq hqn
    simp only [bfsScan]
    exact {
      ext_prev := ⟨[], by simp⟩
      keys_nodup := hkn
      head_start := hhead
      parents := hpar
      reach := hreach
      q_sub := hq
      q_nodup := hqn
      progress := Or.inr ⟨fun x hx => hx, fun p hp => by simp at hp, fun x hx => Or.inl hx⟩ }
  | cons p rest ih =>
    intro q prev hl hnode hkn hhead hpar hreach hq hqn
    simp only [bfsScan]
    by_cases h1 : (prev.lookup p.1).isSome
    · rw [if_pos h1]
      have out := ih q prev (fun r hr => hl r (List.mem_cons_of_mem _ hr)) hnode hkn hhead
        hpar hreach hq hqn
      refine { out with progress := ?_ }
      rcases out.progress with hfound | ⟨ha, hb, hc⟩
      · exact Or.inl hfound
      · refine Or.inr ⟨ha, ?_, hc⟩
        intro r hr
        rcases List.mem_cons.mp hr with rfl | hr'
        · have hmem : r.1 ∈ prev.map Prod.fst := (mem_keys_iff_lookup prev r.1).mpr h1
          obtain ⟨ext, hext⟩ := out.ext_prev
          rw [hext, List.map_append]
          exact List.mem_append_left _ hmem
        · exact hb r hr'
    · rw [if_neg h1]
      have hfreshKey : p.1 ∉ prev.map Prod.fst := by
        rw [mem_keys_iff_lookup]
        simpa using h1
      have hpadj : p ∈ adjOf adj node := hl p (List.mem_cons_self _ _)
      have hstep : adjStep adj node p.1 := ⟨p.2, hpadj⟩
      have hknew : ((prev ++ [(p.1, some node)]).map Prod.fst).Nodup := by
        rw [List.map_append, List.nodup_append]
        refine ⟨hkn, by simp, ?_⟩
        intro a ha hb
        rcases List.mem_singleton.mp (by simpa using hb) with rfl
        exact hfreshKey ha
      have hheadnew : (prev ++ [(p.1, some node)]).head? = some (start, none) :=
        head?_append_of_some hhead
      have hparnew : ParentsProp adj start (prev ++ [(p.1, some node)]) :=
        parentsProp_append hpar hnode hstep
      have hreachnew : ∀ x ∈ (prev ++ [(p.1, some node)]).map Prod.fst, Reach adj start x := by
        intro x hx
        rw [List.map_append] at hx
        rcases List.mem_append.mp hx with hx | hx
        · exact hreach x hx
        · rcases List.mem_singleton.mp (by simpa using hx) with rfl
          exact (hreach node hnode).tail hstep
      by_cases h2 : p.1 = target
      · rw [if_pos h2]
        refine {
          ext_prev := ⟨[(p.1, some node)], rfl⟩
          keys_nodup := hknew
          head_start := hheadnew
          parents := hparnew
          reach := hreachnew
          q_sub := by intro x hx; simp at hx
          q_nodup := List.nodup_nil
          progress := Or.inl ⟨?_, rfl⟩ }
        rw [List.map_append]
        refine List.mem_append_right _ ?_
        simp [h2]
      · rw [if_neg h2]
        have hqsubnew : ∀ x ∈ q ++ [p.1], x ∈ (prev ++ [(p.1, some node)]).map Prod.fst := by
          intro x hx
          rw [List.map_append]
          rcases List.mem_append.mp hx with hx | hx
          · exact List.mem_append_left _ (hq x hx)
          · rcases List.mem_singleton.mp hx with rfl
            exact List.mem_append_right _ (by simp)
        have hqnnew : (q ++ [p.1]).Nodup := by
          rw [List.nodup_append]
          refine ⟨hqn, by simp, ?_⟩
          intro a ha hb
          rcases List.mem_singleton.mp hb with rfl
          exact hfreshKey (hq p.1 ha)
        have hnodemem : node ∈ (prev ++ [(p.1, some node)]).map Prod.fst := by
          rw [List.map_append]
          exact List.mem_append_left _ hnode
        have out := ih (q ++ [p.1]) (prev ++ [(p.1, some node)])
          (fun r hr => hl r (List.mem_cons_of_mem _ hr)) hnodemem hknew hheadnew hparnew
          hreachnew hqsubnew hqnnew
        refine { out with ext_prev := ?_, progress := ?_ }
        · obtain ⟨ext, hext⟩ := out.ext_prev
          refine ⟨(p.1, some node) :: ext, ?_⟩
          rw [hext, List.append_assoc]
          rfl
        · rcases out.progress with hfound | ⟨ha, hb, hc⟩
          · exact Or.inl hfound
          · refine Or.inr ⟨fun x hx => ha x (List.mem_append_left _ hx), ?_, ?_⟩
            · intro r hr
              rcases List.mem_cons.mp hr with rfl | hr'
              · obtain ⟨ext, hext⟩ := out.ext_prev
                rw [hext, List.map_append]
                refine List.mem_append_left _ ?_
                rw [List.map_append]
                exact List.mem_append_right _ (by simp)
              · exact hb r hr'
            · intro x hx
              rcases hc x hx with hx' | hx'
              · rw [List.map_append] at hx'
                rcases List.mem_append.mp hx' with h | h
                · exact Or.inl h
                · rcases List.mem_singleton.mp (by simpa using h) with rfl
                  exact Or.inr (ha _ (List.mem_append_right _ (by simp)))
              · exact Or.inr hx'

theorem bfsLoop_nil_eq (adj : Graph) (target : Vertex) (prev : Prev) :
    bfsLoop adj target [] prev = prev := by
  rw [bfsLoop]

theorem bfsLoop_cons_eq (adj : Graph) (target node : Vertex) (qrest : List Vertex)
    (prev : Prev) :
    bfsLoop adj target (node :: qrest) prev =
      bfsLoop adj target (bfsScan target node (adjOf adj node) qrest prev).1
        (bfsScan target node (adjOf adj node) qrest prev).2 := by
  rw [bfsLoop]

/-- One outer BFS iteration preserves the loop invariant. -/
theorem bfsInv_step {adj : Graph} {start target node : Vertex} {qrest : List Vertex}
    {prev : Prev} (inv : BfsInv adj start target (node :: qrest) prev) :
    BfsInv adj start target (bfsScan target node (adjOf adj node) qrest prev).1
      (bfsScan target node (adjOf adj node) qrest prev).2 := by
  have hnode : node ∈ prev.map Prod.fst := inv.q_sub node (List.mem_cons_self _ _)
  have out := bfsScan_spec adj start target node (adjOf adj node) qrest prev
    (fun p hp => hp) hnode inv.keys_nodup inv.head_start inv.parents inv.reach
    (fun x hx => inv.q_sub x (List.mem_cons_of_mem _ hx))
    (List.nodup_cons.mp inv.q_nodup).2
  obtain ⟨ext, hext⟩ := out.ext_prev
  have hmono : ∀ x ∈ prev.map Prod.fst,
      x ∈ (bfsScan target node (adjOf adj node) qrest prev).2.map Prod.fst := by
    intro x hx
    rw [hext, List.map_append]
    exact List.mem_append_left _ hx
  refine ⟨out.keys_nodup, out.head_start, out.parents, out.q_sub, out.q_nodup, out.reach, ?_⟩
  rcases out.progress with ⟨hfound, _⟩ | ⟨hqkeep, hnbrs, hnew⟩
  · exact Or.inr hfound
  · rcases inv.closed_or_found with hclosed | hfound
    · refine Or.inl ?_
      intro x hxk hxq p hp
      rcases hnew x hxk with hxold | hxq'
      · by_cases hxn : x = node
        · subst hxn
          exact hnbrs p hp
        · have hxnotq : x ∉ node :: qrest := by
            intro hc
            rcases List.mem_cons.mp hc with rfl | hc'
            · exact hxn rfl
            · exact hxq (hqkeep x hc')
          exact hmono _ (hclosed x hxold hxnotq p hp)
      · exact absurd hxq' hxq
    · exact Or.inr (hmono _ hfound)

theorem bfsScan_extends (target node : Vertex) :
    ∀ (l : AdjList) (q : List Vertex) (prev : Prev),
      ∃ ext, (bfsScan target node l q prev).2 = prev ++ ext := by
  intro l
  induction l with
  | nil => intro q prev; exact ⟨[], by simp [bfsScan]⟩
  | cons p rest ih =>
    intro q prev
    simp only [bfsScan]
    by_cases h1 : (prev.lookup p.1).isSome
    · rw [if_pos h1]
      exact ih q prev
    · rw [if_neg h1]
      by_cases h2 : p.1 = target
      · rw [if_pos h2]
        exact ⟨[(p.1, some node)], rfl⟩
      · rw [if_neg h2]
        obtain ⟨ext, hext⟩ := ih (q ++ [p.1]) (prev ++ [(p.1, some node)])
        refine ⟨(p.1, some node) :: ext, ?_⟩
        rw [hext, List.append_assoc]
        rfl

theorem bfsLoop_extends (adj : Graph) (target : Vertex) :
    ∀ (q : List Vertex) (prev : Prev), ∃ ext, bfsLoop adj target q prev = prev ++ ext := by
  intro q prev
  induction q, prev using bfsLoop.induct adj target with
  | case1 prev => exact ⟨[], by simp [bfsLoop_nil_eq]⟩
  | case2 prev node qrest ih =>
    rw [bfsLoop_cons_eq]
    obtain ⟨ext1, hext1⟩ := bfsScan_extends target node (adjOf adj node) qrest prev
    obtain ⟨ext2, hext2⟩ := ih
    refine ⟨ext1 ++ ext2, ?_⟩
    rw [hext2, hext1, List.append_assoc]

/-- Running the BFS to completion preserves the invariant into a state with an
empty queue, and only grows the predecessor map. -/
theorem bfsLoop_inv (adj : Graph) (start target : Vertex) :
    ∀ (q : List Vertex) (prev : Prev), BfsInv adj start target q prev →
      BfsInv adj start target [] (bfsLoop adj target q prev) := by
  intro q prev
  induction q, prev using bfsLoop.induct adj target with
  | case1 prev =>
    intro inv
    rwa [bfsLoop_nil_eq]
  | case2 prev node qrest ih =>
    intro inv
    rw [bfsLoop_cons_eq]
    exact ih (bfsInv_step inv)

/-- The invariant holds of the initial BFS state. -/
theorem bfsInv_init (adj : Graph) (start target : Vertex) :
    BfsInv adj start target [start] [(start, none)] := by
  refine ⟨by simp, by simp, ?_, by simp, by simp, ?_, ?_⟩
  · intro i hi
    simp only [List.length_singleton] at hi
    have hieq : i = 0 := by omega
    subst hieq
    refine ⟨fun _ => rfl, fun pa hpa => ?_⟩
    simp at hpa
  · intro x hx
    rcases List.mem_singleton.mp (by simpa using hx) with rfl
    exact Relation.ReflTransGen.refl
  · refine Or.inl ?_
    intro x hxk hxq
    exfalso
    rcases List.mem_singleton.mp (by simpa using hxk) with rfl
    exact hxq (by simp)

/-- The BFS records the target exactly when it is reachable from the start in
the adjacency structure. -/
theorem bfsPrev_target_iff (adj : Graph) (start target : Vertex) :
    ((bfsPrev adj start target).lookup target).isSome ↔ Reach adj start target := by
  have invF := bfsLoop_inv adj start target [start] [(start, none)]
    (bfsInv_init adj start target)
  have hstartF : start ∈ (bfsPrev adj start target).map Prod.fst := by
    obtain ⟨ext, hext⟩ := bfsLoop_extends adj target [start] [(start, none)]
    unfold bfsPrev
    rw [hext, List.map_append]
    exact List.mem_append_left _ (by simp)
  constructor
  · intro h
    exact invF.reach target ((mem_keys_iff_lookup _ target).mpr h)
  · intro h
    rw [← mem_keys_iff_lookup]
    rcases invF.closed_or_found with hclosed | hfound
    · refine reach_subset_closed (g := adj)
        (S := fun y => y ∈ (bfsPrev adj start target).map Prod.fst) ?_ hstartF target h
      intro a ha y w hadj
      exact hclosed a ha (by simp) (y, w) hadj
    · exact hfound

end BfsCorrectness

section MstAdjBridge

theorem adjOf_mstAdj (mst : List MstEdge) (x : Vertex) :
    adjOf (mstAdj mst) x = specAdjEntries x mst := by
  unfold mstAdj
  rw [adjOf_foldl_addEdge]
  rfl

theorem mem_specAdjEntries_iff (x y : Vertex) (w : Weight) (mst : List MstEdge) :
    (y, w) ∈ specAdjEntries x mst ↔ (x, y, w) ∈ mst ∨ (y, x, w) ∈ mst := by
  induction mst with
  | nil => simp [specAdjEntries]
  | cons e rest ih =>
    obtain ⟨a, b, c⟩ := e
    simp only [specAdjEntries, List.mem_append, ih, List.mem_cons]
    constructor
    · rintro ((h | h) | h | h)
      · split_ifs at h with hax
        · simp only [List.mem_singleton, Prod.mk.injEq] at h
          obtain ⟨rfl, rfl⟩ := h
          subst hax
          exact Or.inl (Or.inl rfl)
        · simp at h
      · split_ifs at h with hbx
        · simp only [List.mem_singleton, Prod.mk.injEq] at h
          obtain ⟨rfl, rfl⟩ := h
          subst hbx
          exact Or.inr (Or.inl rfl)
        · simp at h
      · exact Or.inl (Or.inr h)
      · exact Or.inr (Or.inr h)
    · rintro ((h | h) | h | h)
      · simp only [Prod.mk.injEq] at h
        obtain ⟨rfl, rfl, rfl⟩ := h
        refine Or.inl (Or.inl ?_)
        rw [if_pos rfl]
        simp
      · exact Or.inr (Or.inl h)
      · simp only [Prod.mk.injEq] at h
        obtain ⟨rfl, rfl, rfl⟩ := h
        refine Or.inl (Or.inr ?_)
        rw [if_pos rfl]
        simp
      · exact Or.inr (Or.inr h)

theorem estep_iff_adjStep (mst : List MstEdge) (x y : Vertex) :
    estep mst x y ↔ adjStep (mstAdj mst) x y := by
  constructor
  · rintro ⟨w, h⟩
    refine ⟨w, ?_⟩
    unfold isAdj
    rw [adjOf_mstAdj]
    exact (mem_specAdjEntries_iff x y w mst).mpr h
  · rintro ⟨w, h⟩
    unfold isAdj at h
    rw [adjOf_mstAdj] at h
    exact ⟨w, (mem_specAdjEntries_iff x y w mst).mp h⟩

theorem reachE_iff_reach_mstAdj (mst : List MstEdge) (a b : Vertex) :
    ReachE mst a b ↔ Reach (mstAdj mst) a b := by
  constructor
  · intro h
    induction h with
    | refl => exact Relation.ReflTransGen.refl
    | tail _ hstep ih => exact ih.tail ((estep_iff_adjStep mst _ _).mp hstep)
  · intro h
    induction h with
    | refl => exact Relation.ReflTransGen.refl
    | tail _ hstep ih => exact ih.tail ((estep_iff_adjStep mst _ _).mpr hstep)

end MstAdjBridge

section Unreachability

/-- C5: for distinct `start` and `target`, `find_path_in_mst` returns `none`
exactly when `target` is not connected to `start` in the undirected graph
induced by the MST edge list. -/
theorem findPath_none_iff (mst : List MstEdge) (start target : Vertex)
    (hne : start ≠ target) :
    find_path_in_mst mst start target = none ↔ ¬ ReachE mst start target := by
  unfold find_path_in_mst
  rw [if_neg hne]
  by_cases h : ((bfsPrev (mstAdj mst) start target).lookup target).isSome
  · rw [if_pos h]
    have hreach : ReachE mst start target :=
      (reachE_iff_reach_mstAdj mst start target).mpr
        ((bfsPrev_target_iff (mstAdj mst) start target).mp h)
    constructor
    · intro hc
      simp at hc
    · intro hc
      exact absurd hreach hc
  · rw [if_neg h]
    constructor
    · intro _ hr
      exact h ((bfsPrev_target_iff (mstAdj mst) start target).mpr
        ((reachE_iff_reach_mstAdj mst start target).mp hr))
    · intro _
      rfl

/-- Witness for C5 on a one-edge forest with an isolated target. -/
theorem findPath_none_iff_witness :
    ("A" : Vertex) ≠ "C" ∧
    (find_path_in_mst [("A", "B", (1 : Weight))] "A" "C" = none ↔
      ¬ ReachE [("A", "B", (1 : Weight))] "A" "C") :=
  ⟨by decide, findPath_none_iff [("A", "B", (1 : Weight))] "A" "C" (by decide)⟩

/-- When the target is reachable, `find_path_in_mst` returns a result. -/
theorem findPath_some_of_reach (mst : List MstEdge) (start target : Vertex)
    (hne : start ≠ target) (hr : ReachE mst start target) :
    ∃ pw, find_path_in_mst mst start target = some pw := by
  unfold find_path_in_mst
  rw [if_neg hne, if_pos ((bfsPrev_target_iff (mstAdj mst) start target).mpr
    ((reachE_iff_reach_mstAdj mst start target).mp hr))]
  exact ⟨_, rfl⟩

end Unreachability

section TreePaths

theorem reachT_symm {T : Finset MstEdge} {a b : Vertex} (h : ReachT T a b) :
    ReachT T b a := by
  induction h with
  | refl => exact Relation.ReflTransGen.refl
  | tail _ hstep ih =>
    refine Relation.ReflTransGen.head ?_ ih
    obtain ⟨w, h | h⟩ := hstep
    · exact ⟨w, Or.inr h⟩
    · exact ⟨w, Or.inl h⟩

theorem reachT_mono {T T' : Finset MstEdge} (hsub : T ⊆ T') {a b : Vertex}
    (h : ReachT T a b) : ReachT T' a b := by
  induction h with
  | refl => exact Relation.ReflTransGen.refl
  | tail _ hstep ih =>
    obtain ⟨w, h | h⟩ := hstep
    · exact ih.tail ⟨w, Or.inl (hsub h)⟩
    · exact ih.tail ⟨w, Or.inr (hsub h)⟩

theorem chain_to_reachT {T : Finset MstEdge} :
    ∀ (p : List Vertex) (a b : Vertex), List.Chain' (tstep T) p → p.head? = some a →
      p.getLast? = some b → ReachT T a b := by
  intro p
  induction p with
  | nil => intro a b _ hh _; simp at hh
  | cons c t ih =>
    intro a b hc hh hl
    have hca : c = a := by simpa using hh
    subst hca
    cases t with
    | nil =>
      have : c = b := by simpa using hl
      subst this
      exact Relation.ReflTransGen.refl
    | cons d t' =>
      exact Relation.ReflTransGen.head (List.chain'_cons.mp hc).1
        (ih d b (List.chain'_cons.mp hc).2 rfl (by rwa [List.getLast?_cons_cons] at hl))

theorem reachT_iff_path {T : Finset MstEdge} {a b : Vertex} :
    ReachT T a b ↔
      ∃ p, List.Chain' (tstep T) p ∧ p.head? = some a ∧ p.getLast? = some b := by
  constructor
  · intro h
    induction h with
    | refl => exact ⟨[a], by simp, rfl, rfl⟩
    | @tail m c _ hstep ih =>
      obtain ⟨p, hc, hh, hl⟩ := ih
      refine ⟨p ++ [c], ?_, head?_append_of_some hh, List.getLast?_concat _⟩
      rw [List.chain'_append]
      refine ⟨hc, by simp, ?_⟩
      intro x hx y hy
      simp only [List.head?_cons, Option.mem_def, Option.some.injEq] at hy
      subst hy
      rw [hl] at hx
      simp only [Option.mem_def, Option.some.injEq] at hx
      subst hx
      exact hstep
  · rintro ⟨p, hc, hh, hl⟩
    exact chain_to_reachT p a b hc hh hl

theorem dup_split {α : Type} :
    ∀ (p : List α), ¬ p.Nodup → ∃ x l₁ l₂ l₃, p = l₁ ++ x :: (l₂ ++ x :: l₃) := by
  intro p
  induction p with
  | nil => intro h; exact absurd List.nodup_nil h
  | cons a t ih =>
    intro h
    by_cases hat : a ∈ t
    · obtain ⟨s, u, rfl⟩ := List.append_of_mem hat
      exact ⟨a, [], s, u, by simp⟩
    · have hnd : ¬ t.Nodup := fun hnd => h (List.nodup_cons.mpr ⟨hat, hnd⟩)
      obtain ⟨x, l₁, l₂, l₃, rfl⟩ := ih hnd
      exact ⟨x, a :: l₁, l₂, l₃, by simp⟩

theorem head?_append_cons {α : Type} (l₁ : List α) (x : α) (t t' : List α) :
    (l₁ ++ x :: t).head? = (l₁ ++ x :: t').head? := by
  cases l₁ <;> simp

/-- Any walk between two vertices can be shortened to a simple path. -/
theorem chain_simplify {T : Finset MstEdge} :
    ∀ (n : Nat) (p : List Vertex) (a b : Vertex), p.length ≤ n →
      List.Chain' (tstep T) p → p.head? = some a → p.getLast? = some b →
      ∃ q, List.Chain' (tstep T) q ∧ q.head? = some a ∧ q.getLast? = some b ∧ q.Nodup := by
  intro n
  induction n with
  | zero =>
    intro p a b hlen hc hh hl
    match p with
    | [] => simp at hh
    | x :: t => simp at hlen
  | succ n ih =>
    intro p a b hlen hc hh hl
    by_cases hnd : p.Nodup
    · exact ⟨p, hc, hh, hl, hnd⟩
    · obtain ⟨x, l₁, l₂, l₃, rfl⟩ := dup_split p hnd
      have hassoc : l₁ ++ x :: (l₂ ++ x :: l₃) = (l₁ ++ x :: l₂) ++ (x :: l₃) := by
        simp
      have hc2 : List.Chain' (tstep T) ((l₁ ++ x :: l₂) ++ (x :: l₃)) := by
        rwa [hassoc] at hc
      have hcsuf : List.Chain' (tstep T) (x :: l₃) := (List.chain'_append.mp hc2).2.1
      have hcpre : List.Chain' (tstep T) l₁ := (List.chain'_append.mp hc).1
      have hbound : ∀ u ∈ l₁.getLast?, ∀ y ∈ (x :: (l₂ ++ x :: l₃)).head?, tstep T u y :=
        (List.chain'_append.mp hc).2.2
      have hcq : List.Chain' (tstep T) (l₁ ++ (x :: l₃)) := by
        rw [List.chain'_append]
        refine ⟨hcpre, hcsuf, ?_⟩
        intro u hu y hy
        simp only [List.head?_cons, Option.mem_def, Option.some.injEq] at hy
        subst hy
        exact hbound u hu x (by simp)
      have hhq : (l₁ ++ (x :: l₃)).head? = some a := by
        rw [head?_append_cons l₁ x l₃ (l₂ ++ x :: l₃)]
        exact hh
      have hlq : (l₁ ++ (x :: l₃)).getLast? = some b := by
        rw [List.getLast?_append_of_ne_nil l₁ (by simp)]
        rw [hassoc] at hl
        rwa [List.getLast?_append_of_ne_nil (l₁ ++ x :: l₂) (by simp)] at hl
      have hlenq : (l₁ ++ (x :: l₃)).length ≤ n := by
        simp only [List.length_append, List.length_cons] at hlen ⊢
        omega
      exact ih (l₁ ++ (x :: l₃)) a b hlenq hcq hhq hlq

/-- A single undirected step survives erasing a record `f` when one endpoint
of `f` is a vertex the step avoids. -/
theorem tstep_erase {T : Finset MstEdge} {f : MstEdge} {v c d : Vertex}
    (hf : f.1 = v ∨ f.2.1 = v) (hc : c ≠ v) (hd : d ≠ v) (h : tstep T c d) :
    tstep (T.erase f) c d := by
  obtain ⟨w, hr | hr⟩ := h
  · refine ⟨w, Or.inl (Finset.mem_erase.mpr ⟨?_, hr⟩)⟩
    intro heq
    rcases hf with h1 | h1
    · rw [← heq] at h1
      exact hc h1
    · rw [← heq] at h1
      exact hd h1
  · refine ⟨w, Or.inr (Finset.mem_erase.mpr ⟨?_, hr⟩)⟩
    intro heq
    rcases hf with h1 | h1
    · rw [← heq] at h1
      exact hd h1
    · rw [← heq] at h1
      exact hc h1

/-- A walk avoiding one endpoint of `f` survives erasing `f`. -/
theorem chain_reachT_erase {T : Finset MstEdge} {f : MstEdge} {v : Vertex}
    (hf : f.1 = v ∨ f.2.1 = v) :
    ∀ (p : List Vertex) (c d : Vertex), List.Chain' (tstep T) p → v ∉ p →
      p.head? = some c → p.getLast? = some d → ReachT (T.erase f) c d := by
  intro p
  induction p with
  | nil => intro c d _ _ hh _; simp at hh
  | cons x t ih =>
    intro c d hc hnv hh hl
    have hxc : x = c := by simpa using hh
    subst hxc
    cases t with
    | nil =>
      have : x = d := by simpa using hl
      subst this
      exact Relation.ReflTransGen.refl
    | cons y t' =>
      have hstep : tstep T x y := (List.chain'_cons.mp hc).1
      have hrest : ReachT (T.erase f) y d := by
        refine ih y d (List.chain'_cons.mp hc).2 ?_ rfl ?_
        · exact fun hmem => hnv (List.mem_cons_of_mem _ hmem)
        · rwa [List.getLast?_cons_cons] at hl
      refine Relation.ReflTransGen.head (tstep_erase hf ?_ ?_ hstep) hrest
      · intro hcv
        exact hnv (hcv ▸ List.mem_cons_self _ _)
      · intro hyv
        exact hnv (hyv ▸ List.mem_cons_of_mem _ (List.mem_cons_self _ _))

/-- A simple path from inside `S` to outside `S` crosses the boundary at some
record `f` of `T`, and the two path segments survive erasing `f`. -/
theorem chain_cross_split {T : Finset MstEdge} {S : Finset Vertex} {b : Vertex}
    (hbS : b ∉ S) :
    ∀ (p : List Vertex) (a : Vertex), List.Chain' (tstep T) p → p.head? = some a →
      p.getLast? = some b → p.Nodup → a ∈ S →
      ∃ x y wf f, x ∈ S ∧ y ∉ S ∧ f ∈ T ∧ (f = (x, y, wf) ∨ f = (y, x, wf)) ∧
        ReachT (T.erase f) a x ∧ ReachT (T.erase f) y b := by
  intro p
  induction p with
  | nil => intro a _ hh _ _ _; simp at hh
  | cons c t ih =>
    intro a hc hh hl hnd haS
    have hca : c = a := by simpa using hh
    subst hca
    cases t with
    | nil =>
      exfalso
      have : c = b := by simpa using hl
      subst this
      exact hbS haS
    | cons z t' =>
      have hstep : tstep T c z := (List.chain'_cons.mp hc).1
      have hltail : (z :: t').getLast? = some b := by rwa [List.getLast?_cons_cons] at hl
      by_cases hzS : z ∈ S
      · obtain ⟨x, y, wf, f, hxS, hyS, hfT, hform, hrzx, hryb⟩ :=
          ih z (List.chain'_cons.mp hc).2 rfl hltail (List.nodup_cons.mp hnd).2 hzS

        have hfy : f.1 = y ∨ f.2.1 = y := by
          rcases hform with rfl | rfl
          · exact Or.inr rfl
          · exact Or.inl rfl
        have hcy : c ≠ y := fun hcy => hyS (hcy ▸ haS)
        have hzy : z ≠ y := fun hzy => hyS (hzy ▸ hzS)
        exact ⟨x, y, wf, f, hxS, hyS, hfT, hform,
          Relation.ReflTransGen.head (tstep_erase hfy hcy hzy hstep) hrzx, hryb⟩
      · obtain ⟨w', hr | hr⟩ := hstep
        · refine ⟨c, z, w', (c, z, w'), haS, hzS, hr, Or.inl rfl,
            Relation.ReflTransGen.refl, ?_⟩
          exact chain_reachT_erase (Or.inl rfl) (z :: t') z b (List.chain'_cons.mp hc).2
            (List.nodup_cons.mp hnd).1 rfl hltail
        · refine ⟨c, z, w', (z, c, w'), haS, hzS, hr, Or.inr rfl,
            Relation.ReflTransGen.refl, ?_⟩
          exact chain_reachT_erase (Or.inr rfl) (z :: t') z b (List.chain'_cons.mp hc).2
            (List.nodup_cons.mp hnd).1 rfl hltail

/-- Connectivity is preserved by exchanging the record `f` for a record `e`
whose insertion restores a detour between the endpoints of `f`. -/
theorem reachT_exchange {T : Finset MstEdge} {f e : MstEdge}
    (hdetour : ReachT (insert e (T.erase f)) f.1 f.2.1) {z z' : Vertex}
    (h : ReachT T z z') : ReachT (insert e (T.erase f)) z z' := by
  induction h with
  | refl => exact Relation.ReflTransGen.refl
  | @tail y c _ hstep ih =>
    refine ih.trans ?_
    obtain ⟨w, hr | hr⟩ := hstep
    · by_cases hrf : (y, c, w) = f
      · have h1 : y = f.1 := by rw [← hrf]
        have h2 : c = f.2.1 := by rw [← hrf]
        rw [h1, h2]
        exact hdetour
      · exact Relation.ReflTransGen.single
          ⟨w, Or.inl (Finset.mem_insert_of_mem (Finset.mem_erase.mpr ⟨hrf, hr⟩))⟩
    · by_cases hrf : (c, y, w) = f
      · have h1 : c = f.1 := by rw [← hrf]
        have h2 : y = f.2.1 := by rw [← hrf]
        rw [h1, h2]
        exact reachT_symm hdetour
      · exact Relation.ReflTransGen.single
          ⟨w, Or.inr (Finset.mem_insert_of_mem (Finset.mem_erase.mpr ⟨hrf, hr⟩))⟩

theorem pair_finset_cases {a b u v : Vertex} (hne : u ≠ v)
    (h : ({a, b} : Finset Vertex) = {u, v}) :
    (a = u ∧ b = v) ∨ (a = v ∧ b = u) := by
  have ha : a ∈ ({u, v} : Finset Vertex) := h ▸ (by simp)
  have hb : b ∈ ({u, v} : Finset Vertex) := h ▸ (by simp)
  have hu : u ∈ ({a, b} : Finset Vertex) := h.symm ▸ (by simp)
  have hv : v ∈ ({a, b} : Finset Vertex) := h.symm ▸ (by simp)
  simp only [Finset.mem_insert, Finset.mem_singleton] at ha hb hu hv
  rcases ha with ha | ha
  · rcases hb with hb | hb
    · exfalso
      rcases hv with hv | hv
      · exact hne ((ha ▸ hv : v = u).symm ▸ rfl)
      · exact hne ((hb ▸ hv : v = u).symm ▸ rfl)
    · exact Or.inl ⟨ha, hb⟩
  · rcases hb with hb | hb
    · exact Or.inr ⟨ha, hb⟩
    · exfalso
      rcases hu with hu | hu
      · exact hne (hu.trans ha)
      · exact hne (hu.trans hb)

end TreePaths

section Exchange

theorem mem_triplesOf {g : Graph} {u v : Vertex} {w : Weight} (h : isAdj g u v w) :
    (u, v, w) ∈ triplesOf g := by
  unfold isAdj adjOf at h
  cases hl : g.lookup u with
  | none => rw [hl] at h; simp at h
  | some l =>
    rw [hl] at h
    simp only [Option.getD_some] at h
    have hmem : (u, l) ∈ g := lookup_mem_fact g u l hl
    clear hl
    induction g with
    | nil => simp at hmem
    | cons r rest ih =>
      rcases List.mem_cons.mp hmem with rfl | hm
      · simp only [triplesOf, List.mem_append]
        exact Or.inl (List.mem_map.mpr ⟨(v, w), h, rfl⟩)
      · simp only [triplesOf, List.mem_append]
        exact Or.inr (ih hm)

theorem stree_subset_triples {g : Graph} {s : Vertex} {T : Finset MstEdge}
    (hT : IsSTree g s T) : T ⊆ (triplesOf g).toFinset := by
  intro e he
  rw [List.mem_toFinset]
  exact mem_triplesOf (hT.1 e he)

theorem exists_min_stree {g : Graph} {s : Vertex} (hex : ∃ T, IsSTree g s T) :
    ∃ T, IsSTree g s T ∧ ∀ w' ∈ mstWeightSet g s, treeWeight T ≤ w' := by
  have hfin : {T : Finset MstEdge | IsSTree g s T}.Finite := by
    apply Set.Finite.subset ((triplesOf g).toFinset.powerset.finite_toSet)
    intro T hT
    simp only [Finset.coe_powerset, Set.mem_setOf_eq, Set.mem_preimage,
      Set.mem_powerset_iff, Finset.coe_subset]
    exact stree_subset_triples hT
  obtain ⟨T, hTS, hmin⟩ := Set.exists_min_image _ treeWeight hfin hex
  refine ⟨T, hTS, ?_⟩
  rintro w' ⟨T', hT', rfl⟩
  exact hmin T' hT'

theorem treeWeight_exchange {T : Finset MstEdge} {f e : MstEdge}
    (hf : f ∈ T) (he : e ∉ T) :
    treeWeight (insert e (T.erase f)) = treeWeight T - f.2.2 + e.2.2 := by
  unfold treeWeight
  rw [Finset.sum_insert (fun hc => he (Finset.mem_of_mem_erase hc))]
  have := Finset.sum_erase_add T (fun e => e.2.2) hf
  linarith

theorem card_exchange {T : Finset MstEdge} {f e : MstEdge} (hf : f ∈ T) (he : e ∉ T) :
    (insert e (T.erase f)).card = T.card := by
  rw [Finset.card_insert_of_not_mem (fun hc => he (Finset.mem_of_mem_erase hc)),
    Finset.card_erase_of_mem hf]
  have : 1 ≤ T.card := Finset.card_pos.mpr ⟨f, hf⟩
  omega

/-- Exchanging a record `f` of a minimum spanning tree for a no-heavier edge
`(u, v, w)` of the graph, when a detour between the endpoints of `f` is
restored, gives another minimum spanning tree. -/
theorem exchange_assemble {g : Graph} {s : Vertex} {T : Finset MstEdge}
    {u v : Vertex} {w : Weight} {f : MstEdge}
    (hT : IsSTree g s T) (hmin : ∀ w' ∈ mstWeightSet g s, treeWeight T ≤ w')
    (hfT : f ∈ T) (hwle : w ≤ f.2.2) (he_notin : (u, v, w) ∉ T)
    (hadj : isAdj g u v w) (hne : u ≠ v)
    (hpair : ∀ r ∈ T, pairOf r = pairOf (u, v, w) → r = f)
    (hdetour : ReachT (insert (u, v, w) (T.erase f)) f.1 f.2.1) :
    IsSTree g s (insert (u, v, w) (T.erase f)) ∧
      ∀ w' ∈ mstWeightSet g s, treeWeight (insert (u, v, w) (T.erase f)) ≤ w' := by
  obtain ⟨hTe, hTl, hTp, hTc, hTconn⟩ := hT
  constructor
  · refine ⟨?_, ?_, ?_, ?_, ?_⟩
    · intro e' he'
      rcases Finset.mem_insert.mp he' with rfl | he'
      · exact hadj
      · exact hTe e' (Finset.mem_of_mem_erase he')
    · intro e' he'
      rcases Finset.mem_insert.mp he' with rfl | he'
      · exact hne
      · exact hTl e' (Finset.mem_of_mem_erase he')
    · intro e1 he1 e2 he2 hne12
      rcases Finset.mem_insert.mp he1 with rfl | he1
      · rcases Finset.mem_insert.mp he2 with rfl | he2
        · exact absurd rfl hne12
        · intro hc
          have := hpair e2 (Finset.mem_of_mem_erase he2) hc.symm
          exact (Finset.mem_erase.mp he2).1 this
      · rcases Finset.mem_insert.mp he2 with rfl | he2
        · intro hc
          have := hpair e1 (Finset.mem_of_mem_erase he1) hc
          exact (Finset.mem_erase.mp he1).1 this
        · exact hTp e1 (Finset.mem_of_mem_erase he1) e2 (Finset.mem_of_mem_erase he2) hne12
    · rw [card_exchange hfT he_notin]
      exact hTc
    · intro x hx
      exact reachT_exchange hdetour (hTconn x hx)
  · intro w' hw'
    have h1 : treeWeight (insert (u, v, w) (T.erase f)) ≤ treeWeight T := by
      rw [treeWeight_exchange hfT he_notin]
      linarith
    exact le_trans h1 (hmin w' hw')

/-- The exchange step for the selected edge: a minimum spanning tree containing
the already-selected edges can be adjusted to also contain the newly
selected minimum crossing edge. -/
theorem tree_exchange {g : Graph} {s : Vertex} {visited : Finset Vertex} {w : Weight}
    {u v : Vertex} {rest : List HeapEntry} {mst : List MstEdge} {total : Weight}
    (hC : ClosedG g) (hSy : SymmG g)
    (inv : Inv g s visited ((w, u, v) :: rest) mst total) (hv : v ∉ visited)
    {T : Finset MstEdge} (hT : IsSTree g s T)
    (hmin : ∀ w' ∈ mstWeightSet g s, treeWeight T ≤ w')
    (hsub : ∀ e ∈ mst, e ∈ T) :
    ∃ T', IsSTree g s T' ∧ (∀ w' ∈ mstWeightSet g s, treeWeight T' ≤ w') ∧
      (∀ e ∈ mst, e ∈ T') ∧ (u, v, w) ∈ T' := by
  have hhead := inv.heap_src (w, u, v) (List.mem_cons_self _ _)
  have huvis : u ∈ visited := hhead.1
  have hadj : isAdj g u v w := hhead.2
  have hne : u ≠ v := fun hc => hv (hc ▸ huvis)
  by_cases he : (u, v, w) ∈ T
  · exact ⟨T, hT, hmin, hsub, he⟩
  by_cases hrec : ∃ r ∈ T, pairOf r = pairOf (u, v, w)
  · obtain ⟨r, hrT, hrp⟩ := hrec
    have hcases := pair_finset_cases hne hrp
    have hadjr : isAdj g u v r.2.2 := by
      rcases hcases with ⟨h1, h2⟩ | ⟨h1, h2⟩
      · have := hT.1 r hrT
        rwa [h1, h2] at this
      · have := hT.1 r hrT
        rw [h1, h2] at this
        exact isAdj_symm hSy this
    have hheapmem : (r.2.2, u, v) ∈ (w, u, v) :: rest := by
      rcases inv.cover u huvis v r.2.2 hadjr with h | h
      · exact absurd h hv
      · exact h
    have hwle : w ≤ r.2.2 := by
      rcases List.mem_cons.mp hheapmem with heq | hmem
      · have h3 : r.2.2 = w := congrArg Prod.fst heq
        exact le_of_eq h3.symm
      · exact sorted_head_min inv.heap_sorted _ hmem
    have hpair : ∀ r' ∈ T, pairOf r' = pairOf (u, v, w) → r' = r := by
      intro r' hr'T hr'p
      by_contra hner
      exact hT.2.2.1 r' hr'T r hrT hner (hr'p.trans hrp.symm)
    have hdetour : ReachT (insert (u, v, w) (T.erase r)) r.1 r.2.1 := by
      have hstep : tstep (insert (u, v, w) (T.erase r)) u v :=
        ⟨w, Or.inl (Finset.mem_insert_self _ _)⟩
      rcases hcases with ⟨h1, h2⟩ | ⟨h1, h2⟩
      · rw [h1, h2]
        exact Relation.ReflTransGen.single hstep
      · rw [h1, h2]
        exact reachT_symm (Relation.ReflTransGen.single hstep)
    obtain ⟨hT', hmin'⟩ := exchange_assemble hT hmin hrT hwle he hadj hne hpair hdetour
    refine ⟨insert (u, v, w) (T.erase r), hT', hmin', ?_, Finset.mem_insert_self _ _⟩
    intro e' he'
    refine Finset.mem_insert_of_mem (Finset.mem_erase.mpr ⟨?_, hsub e' he'⟩)
    intro heq
    have hvpair : v ∈ pairOf r := by
      rw [hrp]
      simp [pairOf]
    rw [← heq] at hvpair
    have hsrc := inv.mst_src e' he'
    simp only [pairOf, Finset.mem_insert, Finset.mem_singleton] at hvpair
    rcases hvpair with h | h
    · exact hv (h ▸ hsrc.2.1)
    · exact hv (h ▸ hsrc.2.2)
  · push_neg at hrec
    have hvkeys : v ∈ keys g := isAdj_mem_keys hC hadj
    have hukeys : u ∈ keys g := inv.visited_keys u huvis
    have hTuv : ReachT T u v :=
      (reachT_symm (hT.2.2.2.2 u hukeys)).trans (hT.2.2.2.2 v hvkeys)
    obtain ⟨p0, hc0, hh0, hl0⟩ := reachT_iff_path.mp hTuv
    obtain ⟨p, hc, hh, hl, hnd⟩ := chain_simplify p0.length p0 u v le_rfl hc0 hh0 hl0
    obtain ⟨x, y, wf, f, hxS, hyS, hfT, hform, hrax, hryb⟩ :=
      chain_cross_split hv p u hc hh hl hnd huvis
    have hfw : f.2.2 = wf := by rcases hform with rfl | rfl <;> rfl
    have hadjxy : isAdj g x y wf := by
      rcases hform with rfl | rfl
      · exact hT.1 _ hfT
      · exact isAdj_symm hSy (hT.1 _ hfT)
    have hheapmem : (wf, x, y) ∈ (w, u, v) :: rest := by
      rcases inv.cover x hxS y wf hadjxy with h | h
      · exact absurd h hyS
      · exact h
    have hwle : w ≤ wf := by
      rcases List.mem_cons.mp hheapmem with heq | hmem
      · have h3 : wf = w := congrArg Prod.fst heq
        exact le_of_eq h3.symm
      · exact sorted_head_min inv.heap_sorted _ hmem
    have hwle' : w ≤ f.2.2 := by rw [hfw]; exact hwle
    have hpair : ∀ r' ∈ T, pairOf r' = pairOf (u, v, w) → r' = f := by
      intro r' hr' hp
      exact absurd hp (hrec r' hr')
    have hdetour : ReachT (insert (u, v, w) (T.erase f)) f.1 f.2.1 := by
      have hsub_if : T.erase f ⊆ insert (u, v, w) (T.erase f) := Finset.subset_insert _ _
      have hxu : ReachT (insert (u, v, w) (T.erase f)) x u :=
        reachT_mono hsub_if (reachT_symm hrax)
      have hvy : ReachT (insert (u, v, w) (T.erase f)) v y :=
        reachT_mono hsub_if (reachT_symm hryb)
      have huv : ReachT (insert (u, v, w) (T.erase f)) u v :=
        Relation.ReflTransGen.single ⟨w, Or.inl (Finset.mem_insert_self _ _)⟩
      have hxy : ReachT (insert (u, v, w) (T.erase f)) x y := (hxu.trans huv).trans hvy
      rcases hform with rfl | rfl
      · exact hxy
      · exact reachT_symm hxy
    obtain ⟨hT', hmin'⟩ := exchange_assemble hT hmin hfT hwle' he hadj hne hpair hdetour
    refine ⟨insert (u, v, w) (T.erase f), hT', hmin', ?_, Finset.mem_insert_self _ _⟩
    intro e' he'
    refine Finset.mem_insert_of_mem (Finset.mem_erase.mpr ⟨?_, hsub e' he'⟩)
    intro heq
    have hy_in : y ∈ pairOf f := by
      rcases hform with rfl | rfl <;> simp [pairOf]
    rw [← heq] at hy_in
    have hsrc := inv.mst_src e' he'
    simp only [pairOf, Finset.mem_insert, Finset.mem_singleton] at hy_in
    rcases hy_in with h | h
    · exact hyS (h ▸ hsrc.2.1)
    · exact hyS (h ▸ hsrc.2.2)

end Exchange

section MstOptimality

theorem reachE_toFinset {mst : List MstEdge} {a b : Vertex} (h : ReachE mst a b) :
    ReachT mst.toFinset a b := by
  induction h with
  | refl => exact Relation.ReflTransGen.refl
  | tail _ hstep ih =>
    obtain ⟨w, hw | hw⟩ := hstep
    · exact ih.tail ⟨w, Or.inl (List.mem_toFinset.mpr hw)⟩
    · exact ih.tail ⟨w, Or.inr (List.mem_toFinset.mpr hw)⟩

/-- Through the whole loop, some minimum spanning tree contains all selected
edges. -/
theorem primLoop_mst_spec (g : Graph) (s : Vertex) (hC : ClosedG g) (hSy : SymmG g)
    (visited : Finset Vertex) (heap : List HeapEntry) (mst : List MstEdge)
    (total : Weight) (events : List TraceEvent) (step : Nat) :
    ∀ (mstF : List MstEdge) (totalF : Weight) (evF : List TraceEvent),
      Inv g s visited heap mst total →
      (∃ T, IsSTree g s T ∧ (∀ w' ∈ mstWeightSet g s, treeWeight T ≤ w') ∧
        ∀ e ∈ mst, e ∈ T) →
      primLoop g visited heap mst total events step = .ok (mstF, totalF, evF) →
      ∃ T, IsSTree g s T ∧ (∀ w' ∈ mstWeightSet g s, treeWeight T ≤ w') ∧
        ∀ e ∈ mstF, e ∈ T := by
  induction visited, heap, mst, total, events, step using primLoop.induct g with
  | case1 visited mst total events step =>
    intro mstF totalF evF _ htree heq
    rw [primLoop_nil_eq] at heq
    simp only [Except.ok.injEq, Prod.mk.injEq] at heq
    obtain ⟨rfl, rfl, rfl⟩ := heq
    exact htree
  | case2 visited mst total events step w u v rest hcard hv ih =>
    intro mstF totalF evF inv htree heq
    rw [primLoop_skip_eq g visited w u v rest mst total events step hcard hv] at heq
    exact ih mstF totalF evF (inv_skip inv hv) htree heq
  | case3 visited mst total events step w u v rest hcard hv hl =>
    intro mstF totalF evF inv htree heq
    rw [primLoop_err_eq g visited w u v rest mst total events step hcard hv hl] at heq
    simp at heq
  | case4 visited mst total events step w u v rest hcard hv adjv hl ih =>
    intro mstF totalF evF inv htree heq
    rw [primLoop_select_eq g visited w u v rest mst total events step adjv hcard hv hl]
      at heq
    obtain ⟨T, hT, hmin, hsub⟩ := htree
    obtain ⟨T', hT', hmin', hsub', hmem'⟩ := tree_exchange hC hSy inv hv hT hmin hsub
    refine ih mstF totalF evF (inv_select inv hv hl) ⟨T', hT', hmin', ?_⟩ heq
    intro e he
    rcases List.mem_append.mp he with h | h
    · exact hsub' e h
    · rcases List.mem_singleton.mp h with rfl
      exact hmem'
  | case5 visited mst total events step w u v rest hcard =>
    intro mstF totalF evF _ htree heq
    rw [primLoop_stop_eq g visited w u v rest mst total events step hcard] at heq
    simp only [Except.ok.injEq, Prod.mk.injEq] at heq
    obtain ⟨rfl, rfl, rfl⟩ := heq
    exact htree

/-- C1: on a connected graph (closed, symmetric adjacency, distinct keys,
every key reachable from the start key `s`), `run` succeeds, the selected
edge list has exactly `|V| - 1` edges, and its total weight is the least
weight of any spanning tree of the graph — the value an independent
reference algorithm such as Kruskal computes. -/
theorem run_mst_optimal (g : Graph) (s : Vertex) (p : Bool)
    (hC : ClosedG g) (hSy : SymmG g) (hN : (keys g).Nodup) (hs : s ∈ keys g)
    (hconn : ∀ x ∈ keys g, Reach g s x) :
    ∃ mst total ev, run g s p = .ok (mst, total, ev) ∧
      mst.length + 1 = g.length ∧ IsLeast (mstWeightSet g s) total := by
  obtain ⟨r, hr⟩ := run_ok_exists g s p hC hs
  obtain ⟨mst, total, ev⟩ := r
  obtain ⟨vF, hF, invF, hexit, _⟩ := run_ok_spec hr
  have hveq : vF = (keys g).toFinset := by
    have hsubkeys : vF ⊆ (keys g).toFinset := by
      intro x hx
      rw [List.mem_toFinset]
      exact invF.visited_keys x hx
    rcases hexit with hheap | hcard
    · subst hheap
      apply Finset.Subset.antisymm hsubkeys
      intro x hx
      rw [List.mem_toFinset] at hx
      exact ((final_visited_eq_component invF x).mpr ⟨hx, hconn x hx⟩)
    · apply Finset.eq_of_subset_of_card_le hsubkeys
      rw [keysFinset_card hN]
      omega
  have hmstnodup : mst.Nodup := invF.mst_seconds.of_map _
  have hlen : mst.length + 1 = g.length := by
    have h1 := invF.card_mst
    rw [hveq, keysFinset_card hN] at h1
    omega
  have hstree : IsSTree g s mst.toFinset := by
    refine ⟨?_, ?_, ?_, ?_, ?_⟩
    · intro e he
      exact (invF.mst_src e (List.mem_toFinset.mp he)).1
    · intro e he
      exact invF.mst_noloop e (List.mem_toFinset.mp he)
    · intro e he e' he' hne
      exact invF.mst_pairs e (List.mem_toFinset.mp he) e' (List.mem_toFinset.mp he') hne
    · rw [List.toFinset_card_of_nodup hmstnodup]
      exact hlen
    · intro x hx
      have hxv : x ∈ vF := by
        rw [hveq, List.mem_toFinset]
        exact hx
      exact reachE_toFinset (invF.mst_reach x hxv)
  have hweq : treeWeight mst.toFinset = total := by
    unfold treeWeight
    rw [List.sum_toFinset _ hmstnodup]
    exact invF.total_eq.symm
  obtain ⟨Tm, hTm, hmin⟩ := exists_min_stree ⟨mst.toFinset, hstree⟩
  have hloop : primLoop g {s}
      ((adjOf g s).foldl (fun h p => heapPush h (p.2, s, p.1)) []) [] 0 [] 1 =
        .ok (mst, total, ev) := by
    unfold run at hr
    rwa [if_pos hs] at hr
  obtain ⟨Tf, hTf, hminf, hsubf⟩ := primLoop_mst_spec g s hC hSy _ _ _ _ _ _
    mst total ev (inv_init g s hs) ⟨Tm, hTm, hmin, by intro e he; simp at he⟩ hloop
  have hTfeq : mst.toFinset = Tf := by
    apply Finset.eq_of_subset_of_card_le
    · intro e he
      exact hsubf e (List.mem_toFinset.mp he)
    · rw [List.toFinset_card_of_nodup hmstnodup]
      have := hTf.2.2.2.1
      omega
  refine ⟨mst, total, ev, hr, hlen, ⟨mst.toFinset, hstree, hweq.symm⟩, ?_⟩
  intro w' hw'
  have h1 : treeWeight Tf ≤ w' := hminf w' hw'
  rw [← hTfeq, hweq] at h1
  exact h1

/-- Witness for C1 on the concrete connected two-vertex graph. -/
theorem run_mst_optimal_witness :
    (∀ x ∈ keys [("A", [("B", (1 : Weight))]), ("B", [("A", 1)])],
      Reach [("A", [("B", (1 : Weight))]), ("B", [("A", 1)])] "A" x) ∧
    ∃ mst total ev,
      run [("A", [("B", (1 : Weight))]), ("B", [("A", 1)])] "A" false =
        .ok (mst, total, ev) ∧
      mst.length + 1 = ([("A", [("B", (1 : Weight))]), ("B", [("A", 1)])] : Graph).length ∧
      IsLeast (mstWeightSet [("A", [("B", (1 : Weight))]), ("B", [("A", 1)])] "A") total := by
  have hconn : ∀ x ∈ keys [("A", [("B", (1 : Weight))]), ("B", [("A", 1)])],
      Reach [("A", [("B", (1 : Weight))]), ("B", [("A", 1)])] "A" x := by
    intro x hx
    have hx' : x = "A" ∨ x = "B" := by
      simpa [keys] using hx
    rcases hx' with rfl | rfl
    · exact Relation.ReflTransGen.refl
    · exact Relation.ReflTransGen.single ⟨1, by decide⟩
  exact ⟨hconn,
    run_mst_optimal [("A", [("B", (1 : Weight))]), ("B", [("A", 1)])] "A" false
      (by decide) (by decide) (by decide) (by decide) hconn⟩

end MstOptimality

section PathReconstruction

theorem lookup_of_mem_nodup {β : Type} :
    ∀ (l : List (Vertex × β)) (x : Vertex) (b : β), (l.map Prod.fst).Nodup →
      (x, b) ∈ l → l.lookup x = some b := by
  intro l
  induction l with
  | nil => intro x b _ hmem; simp at hmem
  | cons p rest ih =>
    intro x b hnd hmem
    rw [List.lookup]
    rcases List.mem_cons.mp hmem with heq | hmem'
    · rw [← heq]
      simp
    · by_cases hxp : (x == p.1) = true
      · exfalso
        have hx : x = p.1 := by simpa using hxp
        have hxrest : x ∈ rest.map Prod.fst := List.mem_map.mpr ⟨(x, b), hmem', rfl⟩
        rw [List.map_cons, List.nodup_cons] at hnd
        exact hnd.1 (hx ▸ hxrest)
      · simp only [hxp]
        exact ih x b (List.nodup_cons.mp (by simpa using hnd)).2 hmem'

theorem get_fst_inj {prev : Prev} (hkn : (prev.map Prod.fst).Nodup)
    (i j : Nat) (hi : i < prev.length) (hj : j < prev.length)
    (heq : (prev.get ⟨i, hi⟩).1 = (prev.get ⟨j, hj⟩).1) : i = j := by
  have hmi : i < (prev.map Prod.fst).length := by simpa using hi
  have hmj : j < (prev.map Prod.fst).length := by simpa using hj
  have h1 : (prev.map Prod.fst).get ⟨i, hmi⟩ = (prev.get ⟨i, hi⟩).1 := List.get_map Prod.fst
  have h2 : (prev.map Prod.fst).get ⟨j, hmj⟩ = (prev.get ⟨j, hj⟩).1 := List.get_map Prod.fst
  have : (⟨i, hmi⟩ : Fin (prev.map Prod.fst).length) = ⟨j, hmj⟩ :=
    (hkn.get_inj_iff).mp (by rw [h1, h2]; exact heq)
  simpa using this

/-- Path reconstruction follows the parent pointers from any recorded key down
to the start vertex, producing a duplicate-free chain of adjacency steps. -/
theorem reconstruct_spec {adj : Graph} {start : Vertex} {prev : Prev}
    (hkn : (prev.map Prod.fst).Nodup) (hpar : ParentsProp adj start prev) :
    ∀ (i : Nat), ∀ hi : i < prev.length, ∀ fuel : Nat, i < fuel →
      ∃ r, reconstruct prev (some ((prev.get ⟨i, hi⟩).1)) fuel =
          (prev.get ⟨i, hi⟩).1 :: r ∧
        ((prev.get ⟨i, hi⟩).1 :: r).getLast? = some start ∧
        List.Chain' (fun a b => adjStep adj b a) ((prev.get ⟨i, hi⟩).1 :: r) ∧
        ((prev.get ⟨i, hi⟩).1 :: r).Nodup ∧
        ∀ z ∈ r, ∃ j, ∃ hj : j < prev.length, j < i ∧ (prev.get ⟨j, hj⟩).1 = z := by
  intro i
  induction i using Nat.strong_induction_on with
  | _ i ih =>
    intro hi fuel hfuel
    obtain ⟨fu, rfl⟩ : ∃ fu, fuel = fu + 1 := ⟨fuel - 1, by omega⟩
    have hentry : ((prev.get ⟨i, hi⟩).1, (prev.get ⟨i, hi⟩).2) ∈ prev := by
      simpa using prev.get_mem i hi
    have hlook : prev.lookup ((prev.get ⟨i, hi⟩).1) = some ((prev.get ⟨i, hi⟩).2) :=
      lookup_of_mem_nodup prev _ _ hkn hentry
    have hrec : reconstruct prev (some ((prev.get ⟨i, hi⟩).1)) (fu + 1) =
        (prev.get ⟨i, hi⟩).1 ::
          reconstruct prev ((prev.lookup ((prev.get ⟨i, hi⟩).1)).getD none) fu := rfl
    rw [hrec, hlook]
    cases hpo : (prev.get ⟨i, hi⟩).2 with
    | none =>
      have hstart : (prev.get ⟨i, hi⟩).1 = start := (hpar i hi).1 hpo
      simp only [Option.getD_some]
      have hre : reconstruct prev none fu = [] := by cases fu <;> rfl
      rw [hre]
      exact ⟨[], rfl, by rw [hstart]; simp, by simp, by simp, by simp⟩
    | some pa =>
      obtain ⟨hstep, j, hj, hjlt, hgj⟩ := (hpar i hi).2 pa hpo
      simp only [Option.getD_some]
      have hfu : j < fu := by omega
      obtain ⟨r', hre, hlast, hchain, hnd, hbound⟩ := ih j hjlt hj fu hfu
      rw [← hgj, hre]
      refine ⟨(prev.get ⟨j, hj⟩).1 :: r', rfl, ?_, ?_, ?_, ?_⟩
      · rwa [List.getLast?_cons_cons]
      · rw [List.chain'_cons]
        refine ⟨?_, hchain⟩
        rw [hgj]
        exact hstep
      · rw [List.nodup_cons]
        refine ⟨?_, hnd⟩
        intro hmem
        rcases List.mem_cons.mp hmem with heq | hmem'
        · have := get_fst_inj hkn i j hi hj heq
          omega
        · obtain ⟨k, hk, hklt, hgk⟩ := hbound _ hmem'
          have := get_fst_inj hkn i k hi hk hgk.symm
          omega
      · intro z hz
        rcases List.mem_cons.mp hz with rfl | hz'
        · exact ⟨j, hj, hjlt, rfl⟩
        · obtain ⟨k, hk, hklt, hgk⟩ := hbound z hz'
          exact ⟨k, hk, by omega, hgk⟩

/-- The path returned by `find_path_in_mst` is a simple path from `start` to
`target` through the MST edges, and the returned weight is the Python
accumulation over it. -/
theorem findPath_path_chars {mst : List MstEdge} {start target : Vertex}
    {path : List Vertex} {w : Weight} (hne : start ≠ target)
    (h : find_path_in_mst mst start target = some (path, w)) :
    SimplePath mst path start target ∧ w = pathWeight (mstAdj mst) path := by
  unfold find_path_in_mst at h
  rw [if_neg hne] at h
  by_cases hsome : ((bfsPrev (mstAdj mst) start target).lookup target).isSome
  · rw [if_pos hsome] at h
    simp only [Option.some.injEq, Prod.mk.injEq] at h
    obtain ⟨hpath, hw⟩ := h
    have invF : BfsInv (mstAdj mst) start target []
        (bfsPrev (mstAdj mst) start target) :=
      bfsLoop_inv (mstAdj mst) start target [start] [(start, none)]
        (bfsInv_init (mstAdj mst) start target)
    have htmem : target ∈ (bfsPrev (mstAdj mst) start target).map Prod.fst :=
      (mem_keys_iff_lookup _ target).mpr hsome
    obtain ⟨e, hemem, he1⟩ := List.mem_map.mp htmem
    obtain ⟨⟨i, hi⟩, hget⟩ := List.mem_iff_get.mp hemem
    have hgt : ((bfsPrev (mstAdj mst) start target).get ⟨i, hi⟩).1 = target := by
      rw [hget, he1]
    have hfuel : i < (bfsPrev (mstAdj mst) start target).length + 1 := by omega
    obtain ⟨r, hre, hlast, hchain, hnd, _⟩ :=
      reconstruct_spec invF.keys_nodup invF.parents i hi _ hfuel
    rw [hgt] at hre hlast hchain hnd
    rw [hre] at hpath hw
    subst hpath
    refine ⟨⟨?_, ?_, ?_, ?_⟩, hw.symm⟩
    · rw [List.chain'_reverse]
      exact List.Chain'.imp (fun a b hab => (estep_iff_adjStep mst b a).mpr hab) hchain
    · rw [List.head?_reverse]
      exact hlast
    · rw [List.getLast?_reverse]
      rfl
    · exact List.nodup_reverse.mpr hnd
  · rw [if_neg hsome] at h
    cases h

theorem foldl_add_eq (f : Vertex × Vertex → Weight) :
    ∀ (l : List (Vertex × Vertex)) (c : Weight),
      l.foldl (fun acc x => acc + f x) c = c + (l.map f).sum := by
  intro l
  induction l with
  | nil => intro c; simp
  | cons x t ih =>
    intro c
    simp only [List.foldl_cons, List.map_cons, List.sum_cons]
    rw [ih]
    ring

theorem firstWeight_mem {mst : List MstEdge} {x y : Vertex} (h : estep mst x y) :
    ∃ w0, firstWeight (mstAdj mst) x y = some w0 ∧
      ((x, y, w0) ∈ mst ∨ (y, x, w0) ∈ mst) := by
  obtain ⟨w, hw⟩ := h
  have hmem : (y, w) ∈ adjOf (mstAdj mst) x := by
    rw [adjOf_mstAdj]
    exact (mem_specAdjEntries_iff x y w mst).mpr hw
  have hsome : ((adjOf (mstAdj mst) x).find? fun p => p.1 == y).isSome := by
    rw [List.find?_isSome]
    exact ⟨(y, w), hmem, by simp⟩
  obtain ⟨q, hq⟩ := Option.isSome_iff_exists.mp hsome
  have hqmem : q ∈ adjOf (mstAdj mst) x := List.mem_of_find?_eq_some hq
  have hq1 : q.1 = y := by simpa using List.find?_some hq
  refine ⟨q.2, ?_, ?_⟩
  · unfold firstWeight
    rw [hq]
    rfl
  · rw [adjOf_mstAdj] at hqmem
    have hqm : (q.1, q.2) ∈ specAdjEntries x mst := by simpa using hqmem
    rw [hq1] at hqm
    exact (mem_specAdjEntries_iff x y q.2 mst).mp hqm

/-- The accumulated path weight is a sum of weights of actual records joining
the consecutive path vertices. -/
theorem chain_weightedChain {mst : List MstEdge} :
    ∀ (q : List Vertex), List.Chain' (estep mst) q →
      WeightedChain mst q (pathWeight (mstAdj mst) q) := by
  intro q
  induction q with
  | nil =>
    intro _
    exact WeightedChain.nil
  | cons x t ih =>
    intro hc
    cases t with
    | nil => exact WeightedChain.single x
    | cons y t' =>
      have hstep : estep mst x y := (List.chain'_cons.mp hc).1
      obtain ⟨w0, hfw, hrec⟩ := firstWeight_mem hstep
      have hpw : pathWeight (mstAdj mst) (x :: y :: t') =
          w0 + pathWeight (mstAdj mst) (y :: t') := by
        unfold pathWeight
        simp only [List.tail_cons, List.zip_cons_cons, List.foldl_cons]
        rw [foldl_add_eq, foldl_add_eq, hfw]
        simp only [Option.getD_some]
        ring
      rw [hpw]
      exact WeightedChain.cons x y t' w0 _ hrec (ih (List.chain'_cons.mp hc).2)

end PathReconstruction

section ForestUniqueness

theorem estep_symm {l : List MstEdge} {a b : Vertex} (h : estep l a b) : estep l b a := by
  obtain ⟨w, h | h⟩ := h
  exacts [⟨w, Or.inr h⟩, ⟨w, Or.inl h⟩]

theorem singleton_simple_path {q : List Vertex} {a : Vertex}
    (hh : q.head? = some a) (hl : q.getLast? = some a) (hnd : q.Nodup) : q = [a] := by
  cases q with
  | nil => simp at hh
  | cons c t =>
    have hca : c = a := by simpa using hh
    subst hca
    cases t with
    | nil => rfl
    | cons d t' =>
      exfalso
      have hlast : (d :: t').getLast? = some c := by rwa [List.getLast?_cons_cons] at hl
      exact (List.nodup_cons.mp hnd).1 (List.mem_of_mem_getLast? hlast)

theorem first_split {α : Type} (P : α → Prop) :
    ∀ (l : List α), (∃ z ∈ l, P z) →
      ∃ l₁ z l₂, l = l₁ ++ z :: l₂ ∧ P z ∧ ∀ y ∈ l₁, ¬ P y := by
  intro l
  induction l with
  | nil => rintro ⟨z, hz, _⟩; simp at hz
  | cons c t ih =>
    rintro ⟨z, hz, hPz⟩
    by_cases hPc : P c
    · exact ⟨[], c, t, rfl, hPc, by simp⟩
    · have hex : ∃ z ∈ t, P z := by
        rcases List.mem_cons.mp hz with rfl | hz'
        · exact absurd hPz hPc
        · exact ⟨z, hz', hPz⟩
      obtain ⟨l₁, z', l₂, rfl, hPz', hneg⟩ := ih hex
      refine ⟨c :: l₁, z', l₂, rfl, hPz', ?_⟩
      intro y hy
      rcases List.mem_cons.mp hy with rfl | hy'
      · exact hPc
      · exact hneg y hy'

/-- Two simple paths between the same endpoints that branch immediately give a
simple cycle. -/
theorem two_paths_cycle {mst : List MstEdge} {a b a2 b2 : Vertex} {pt' qt' : List Vertex}
    (hab2 : a2 ≠ b2)
    (hp : SimplePath mst (a :: a2 :: pt') a b)
    (hq : SimplePath mst (a :: b2 :: qt') a b) :
    ∃ c, SimpleCycle mst c := by
  obtain ⟨hpc, _, hpl, hpn⟩ := hp
  obtain ⟨hqc, _, hql, hqn⟩ := hq
  have hstep_a_a2 : estep mst a a2 := (List.chain'_cons.mp hpc).1
  have hstep_a_b2 : estep mst a b2 := (List.chain'_cons.mp hqc).1
  have hPc : List.Chain' (estep mst) (a2 :: pt') := (List.chain'_cons.mp hpc).2
  have hQc : List.Chain' (estep mst) (b2 :: qt') := (List.chain'_cons.mp hqc).2
  have hPn : (a2 :: pt').Nodup := (List.nodup_cons.mp hpn).2
  have hQn : (b2 :: qt').Nodup := (List.nodup_cons.mp hqn).2
  have haP : a ∉ a2 :: pt' := (List.nodup_cons.mp hpn).1
  have haQ : a ∉ b2 :: qt' := (List.nodup_cons.mp hqn).1
  have hPl : (a2 :: pt').getLast? = some b := by rwa [List.getLast?_cons_cons] at hpl
  have hQl : (b2 :: qt').getLast? = some b := by rwa [List.getLast?_cons_cons] at hql
  have hbP : b ∈ a2 :: pt' := List.mem_of_mem_getLast? hPl
  have hbQ : b ∈ b2 :: qt' := List.mem_of_mem_getLast? hQl
  obtain ⟨P₁, x, P₂, hPdec, hxQ, hP₁⟩ :=
    first_split (fun z => z ∈ b2 :: qt') (a2 :: pt') ⟨b, hbP, hbQ⟩
  obtain ⟨Q₁, Q₂, hQdec⟩ := List.append_of_mem hxQ
  refine ⟨a :: (P₁ ++ x :: Q₁.reverse), ?_, ?_, ?_, ?_⟩
  · -- length at least three
    have hne_both : P₁ ≠ [] ∨ Q₁ ≠ [] := by
      by_contra hcon
      push_neg at hcon
      obtain ⟨h1, h2⟩ := hcon
      subst h1
      subst h2
      have ha2x : a2 = x := by
        have := hPdec
        simp only [List.nil_append] at this
        exact (List.cons.injEq _ _ _ _).mp this |>.1
      have hb2x : b2 = x := by
        have := hQdec
        simp only [List.nil_append] at this
        exact (List.cons.injEq _ _ _ _).mp this |>.1
      exact hab2 (ha2x.trans hb2x.symm)
    have hlen : 1 ≤ P₁.length ∨ 1 ≤ Q₁.length := by
      rcases hne_both with h | h
      · exact Or.inl (List.length_pos.mpr h)
      · exact Or.inr (List.length_pos.mpr h)
    simp only [List.length_cons, List.length_append, List.length_reverse]
    omega
  · -- nodup
    have hPmid : x ∉ P₁ ∧ x ∉ P₂ ∧ P₁.Nodup := by
      rw [hPdec, List.nodup_middle, List.nodup_cons] at hPn
      obtain ⟨hx, hnd⟩ := hPn
      rw [List.mem_append] at hx
      push_neg at hx
      exact ⟨hx.1, hx.2, (List.nodup_append.mp hnd).1⟩
    have hQmid : x ∉ Q₁ ∧ Q₁.Nodup := by
      rw [hQdec, List.nodup_middle, List.nodup_cons] at hQn
      obtain ⟨hx, hnd⟩ := hQn
      rw [List.mem_append] at hx
      push_neg at hx
      exact ⟨hx.1, (List.nodup_append.mp hnd).1⟩
    have hP₁sub : ∀ y ∈ P₁, y ∈ a2 :: pt' := by
      intro y hy
      rw [hPdec]
      exact List.mem_append_left _ hy
    have hQ₁sub : ∀ y ∈ Q₁, y ∈ b2 :: qt' := by
      intro y hy
      rw [hQdec]
      exact List.mem_append_left _ hy
    rw [List.nodup_cons]
    constructor
    · intro hmem
      rcases List.mem_append.mp hmem with h | h
      · exact haP (hP₁sub a h)
      · rcases List.mem_cons.mp h with rfl | h'
        · exact haP (hPdec ▸ List.mem_append_right _ (List.mem_cons_self _ _))
        · exact haQ (hQ₁sub a (List.mem_reverse.mp h'))
    · rw [List.nodup_middle, List.nodup_cons]
      constructor
      · intro hmem
        rcases List.mem_append.mp hmem with h | h
        · exact hPmid.1 h
        · exact hQmid.1 (List.mem_reverse.mp h)
      · rw [List.nodup_append]
        refine ⟨hPmid.2.2, List.nodup_reverse.mpr hQmid.2, ?_⟩
        intro y hy hy'
        exact hP₁ y hy (hQ₁sub y (List.mem_reverse.mp hy'))
  · -- chain
    rw [List.chain'_cons']
    constructor
    · intro h hh
      have hhead : (P₁ ++ x :: Q₁.reverse).head? = some a2 := by
        rw [head?_append_cons P₁ x Q₁.reverse P₂, ← hPdec]
        rfl
      rw [hhead] at hh
      simp only [Option.mem_def, Option.some.injEq] at hh
      subst hh
      exact hstep_a_a2
    · rw [List.chain'_append]
      have hPc' : List.Chain' (estep mst) (P₁ ++ x :: P₂) := by rwa [hPdec] at hPc
      refine ⟨(List.chain'_append.mp hPc').1, ?_, ?_⟩
      · have hrev : x :: Q₁.reverse = (Q₁ ++ [x]).reverse := by simp
        rw [hrev, List.chain'_reverse]
        have hQc' : List.Chain' (estep mst) ((Q₁ ++ [x]) ++ Q₂) := by
          have hassoc : (Q₁ ++ [x]) ++ Q₂ = Q₁ ++ x :: Q₂ := by simp
          rw [hassoc, ← hQdec]
          exact hQc
        exact List.Chain'.imp (fun u v' huv => estep_symm huv)
          (List.chain'_append.mp hQc').1
      · intro u hu y hy
        simp only [List.head?_cons, Option.mem_def, Option.some.injEq] at hy
        subst hy
        exact (List.chain'_append.mp hPc').2.2 u hu x (by simp)
  · -- closing edge
    intro x' y' hh' hl'
    have hax' : a = x' := by simpa using hh'
    have hlast : (a :: (P₁ ++ x :: Q₁.reverse)).getLast? = some b2 := by
      cases Q₁ with
      | nil =>
        have hxb2 : b2 = x := by
          simp only [List.nil_append] at hQdec
          exact (List.cons.injEq _ _ _ _).mp hQdec |>.1
        simp only [List.reverse_nil]
        have hform : a :: (P₁ ++ [x]) = (a :: P₁) ++ [x] := by simp
        rw [hform, List.getLast?_concat, hxb2]
      | cons d Q₁' =>
        have hdb2 : b2 = d := by
          rw [List.cons_append] at hQdec
          exact (List.cons.injEq _ _ _ _).mp hQdec |>.1
        have hform : a :: (P₁ ++ x :: (d :: Q₁').reverse) =
            ((a :: P₁) ++ [x]) ++ (d :: Q₁').reverse := by simp
        rw [hform, List.getLast?_append_of_ne_nil _ (by simp), List.getLast?_reverse]
        simp [hdb2]
    have hby' : b2 = y' := by
      rw [hlast] at hl'
      simpa using hl'
    rw [← hax', ← hby']
    exact estep_symm hstep_a_b2

/-- In a forest, simple paths between fixed endpoints are unique. -/
theorem forest_unique_path {mst : List MstEdge} (hF : IsForestE mst) :
    ∀ (n : Nat) (p q : List Vertex) (a b : Vertex), p.length ≤ n →
      SimplePath mst p a b → SimplePath mst q a b → p = q := by
  intro n
  induction n with
  | zero =>
    intro p q a b hlen hp _
    obtain ⟨_, hph, _, _⟩ := hp
    cases p with
    | nil => simp at hph
    | cons c t => simp at hlen
  | succ n ih =>
    intro p q a b hlen hp hq
    obtain ⟨hpc, hph, hpl, hpn⟩ := hp
    obtain ⟨hqc, hqh, hql, hqn⟩ := hq
    cases p with
    | nil => simp at hph
    | cons c pt =>
      have hca : c = a := by simpa using hph
      subst hca
      cases q with
      | nil => simp at hqh
      | cons c' qt =>
        have hc'a : c = c' := Eq.symm (by simpa using hqh)
        subst hc'a
        cases pt with
        | nil =>
          have hab : c = b := by simpa using hpl
          subst hab
          exact (singleton_simple_path hqh hql hqn).symm
        | cons a2 pt' =>
          cases qt with
          | nil =>
            exfalso
            have hab : c = b := by simpa using hql
            subst hab
            have := singleton_simple_path hph hpl hpn
            simp at this
          | cons b2 qt' =>
            by_cases hab2 : a2 = b2
            · subst hab2
              have hptail : SimplePath mst (a2 :: pt') a2 b :=
                ⟨(List.chain'_cons.mp hpc).2, rfl, by rwa [List.getLast?_cons_cons] at hpl,
                  (List.nodup_cons.mp hpn).2⟩
              have hqtail : SimplePath mst (a2 :: qt') a2 b :=
                ⟨(List.chain'_cons.mp hqc).2, rfl, by rwa [List.getLast?_cons_cons] at hql,
                  (List.nodup_cons.mp hqn).2⟩
              have hlen' : (a2 :: pt').length ≤ n := by
                simp only [List.length_cons] at hlen ⊢
                omega
              have := ih (a2 :: pt') (a2 :: qt') a2 b hlen' hptail hqtail
              rw [this]
            · exfalso
              obtain ⟨cyc, hcyc⟩ := two_paths_cycle hab2
                ⟨hpc, rfl, hpl, hpn⟩ ⟨hqc, rfl, hql, hqn⟩
              exact hF.2.2 cyc hcyc

/-- C6: when `find_path_in_mst` returns `some (path, weight)` for distinct
endpoints on a forest edge list, `path` is the unique simple path joining
them — consecutive path elements are joined by records of the list — and
`weight` is the sum of the weights of those records. -/
theorem findPath_unique_path (mst : List MstEdge) (start target : Vertex)
    (path : List Vertex) (w : Weight) (hne : start ≠ target) (hF : IsForestE mst)
    (h : find_path_in_mst mst start target = some (path, w)) :
    SimplePath mst path start target ∧
      (∀ q, SimplePath mst q start target → q = path) ∧ WeightedChain mst path w := by
  obtain ⟨hsp, hw⟩ := findPath_path_chars hne h
  refine ⟨hsp, ?_, ?_⟩
  · intro q hq
    exact forest_unique_path hF q.length q path start target le_rfl hq hsp
  · rw [hw]
    exact chain_weightedChain path hsp.1

/-- Witness for C6 on the one-edge forest. -/
theorem findPath_unique_path_witness :
    ("A" : Vertex) ≠ "B" ∧ IsForestE [("A", "B", (1 : Weight))] ∧
    ∃ path w, find_path_in_mst [("A", "B", (1 : Weight))] "A" "B" = some (path, w) ∧
      SimplePath [("A", "B", (1 : Weight))] path "A" "B" ∧
      (∀ q, SimplePath [("A", "B", (1 : Weight))] q "A" "B" → q = path) ∧
      WeightedChain [("A", "B", (1 : Weight))] path w := by
  have hstepAB : ∀ u v', estep [("A", "B", (1 : Weight))] u v' →
      (u = "A" ∧ v' = "B") ∨ (u = "B" ∧ v' = "A") := by
    rintro u v' ⟨w', h | h⟩
    · simp only [List.mem_singleton, Prod.mk.injEq] at h
      exact Or.inl ⟨h.1, h.2.1⟩
    · simp only [List.mem_singleton, Prod.mk.injEq] at h
      exact Or.inr ⟨h.2.1, h.1⟩
  have hF : IsForestE [("A", "B", (1 : Weight))] := by
    refine ⟨by decide, by decide, ?_⟩
    rintro c ⟨hlen, hnd, hch, _⟩
    match c, hlen with
    | x :: y :: z :: rest, _ =>
      have h1 := (List.chain'_cons.mp hch).1
      have h2 := (List.chain'_cons.mp (List.chain'_cons.mp hch).2).1
      rcases hstepAB x y h1 with ⟨rfl, rfl⟩ | ⟨rfl, rfl⟩
      · rcases hstepAB _ _ h2 with ⟨hy, _⟩ | ⟨_, rfl⟩
        · exact absurd hy (by decide)
        · simp at hnd
      · rcases hstepAB _ _ h2 with ⟨_, rfl⟩ | ⟨hy, _⟩
        · simp at hnd
        · exact absurd hy (by decide)
  have hreach : ReachE [("A", "B", (1 : Weight))] "A" "B" :=
    Relation.ReflTransGen.single ⟨1, Or.inl (by simp)⟩
  obtain ⟨pw, hsome⟩ :=
    findPath_some_of_reach [("A", "B", (1 : Weight))] "A" "B" (by decide) hreach
  exact ⟨by decide, hF, pw.1, pw.2, hsome,
    findPath_unique_path [("A", "B", (1 : Weight))] "A" "B" pw.1 pw.2 (by decide) hF hsome⟩

end ForestUniqueness

end PrimSim
